import Mathlib

/-!
Verification of the bita content-defined deduplicating archive engine against
its natural-language specification.  The development shallowly embeds:

* the blocking chunker driver (bitar/src/chunker/blocking_chunker.rs):
  BlockingChunker.next_chunk and refill_buf;
* the polling refill helper (bitar/src/chunker/mod.rs): refill_read_buf;
* the compress pipeline (bita/src/compress_cmd.rs): chunk_input;
* the seed-scanning reconstructor (src/unpack_cmd.rs): chunk_seed and
  unpack_input;
* the error enum (bitar/src/error.rs).

Bytes are modelled as Nat, byte buffers as List Nat.  The inner boundary
policy of the chunker (rolling_hash.rs / fixed_size.rs, not part of the
source snapshot) is modelled from the spec as an arbitrary prefix predicate
with earliest-match semantics.
-/

namespace Bita

/-! ## Chunker boundary policy -/

/-- Modelled from the spec: the repository snapshot holds only the chunker
drivers, not the inner RollingHashChunker and FixedSizeChunker.  Per the spec
boundary rule, a boundary at position p of the current chunk depends only on
the first p bytes of that chunk (rolling-hash mask rule, minimum size rule,
forced maximum-size cut), and the chunker declares the earliest such boundary.
findCutAux cut buf p r scans candidate boundary positions p, p+1, ..., p+r-1
and returns the first one whose prefix satisfies cut. -/
def findCutAux (cut : List Nat → Bool) (buf : List Nat) : Nat → Nat → Option Nat
  | _, 0 => none
  | p, r + 1 => if cut (buf.take p) then some p else findCutAux cut buf (p + 1) r

/-- Modelled from the spec: the inner chunker inspects the buffer and, when it
finds a boundary, splits off the bytes up to the earliest boundary position as
the next chunk. -/
def findCut (cut : List Nat → Bool) (buf : List Nat) : Option Nat :=
  findCutAux cut buf 1 buf.length

theorem findCutAux_eq_some (cut : List Nat → Bool) (buf : List Nat) :
    ∀ (r p n : Nat),
      (findCutAux cut buf p r = some n ↔
        (p ≤ n ∧ n < p + r ∧ cut (buf.take n) = true ∧
          ∀ q, p ≤ q → q < n → cut (buf.take q) = false)) := by
  intro r
  induction r with
  | zero =>
    intro p n
    simp only [findCutAux]
    constructor
    · intro h; cases h
    · intro h; omega
  | succ r ih =>
    intro p n
    simp only [findCutAux]
    by_cases hc : cut (buf.take p) = true
    · rw [if_pos hc]
      constructor
      · intro h
        injection h with h
        subst h
        exact ⟨Nat.le_refl _, by omega, hc,
          fun q hq1 hq2 => absurd (Nat.lt_of_le_of_lt hq1 hq2) (Nat.lt_irrefl _)⟩
      · rintro ⟨h1, _, h3, h4⟩
        rcases Nat.eq_or_lt_of_le h1 with h | h
        · rw [h]
        · have hfalse := h4 p (Nat.le_refl p) h
          rw [hc] at hfalse
          cases hfalse
    · have hcf : cut (buf.take p) = false := by
        cases hx : cut (buf.take p)
        · rfl
        · exact absurd hx hc
      rw [if_neg hc, ih (p + 1) n]
      constructor
      · rintro ⟨h1, h2, h3, h4⟩
        refine ⟨by omega, by omega, h3, fun q hq1 hq2 => ?_⟩
        rcases Nat.eq_or_lt_of_le hq1 with h | h
        · rw [← h]; exact hcf
        · exact h4 q h hq2
      · rintro ⟨h1, h2, h3, h4⟩
        have hne : n ≠ p := by
          intro h
          rw [h, hcf] at h3
          cases h3
        refine ⟨by omega, by omega, h3, fun q hq1 hq2 => h4 q (by omega) hq2⟩

theorem findCut_eq_some (cut : List Nat → Bool) (buf : List Nat) (n : Nat) :
    findCut cut buf = some n ↔
      (1 ≤ n ∧ n ≤ buf.length ∧ cut (buf.take n) = true ∧
        ∀ q, 1 ≤ q → q < n → cut (buf.take q) = false) := by
  rw [findCut, findCutAux_eq_some]
  constructor
  · rintro ⟨h1, h2, h3, h4⟩; exact ⟨h1, by omega, h3, h4⟩
  · rintro ⟨h1, h2, h3, h4⟩; exact ⟨h1, by omega, h3, h4⟩

theorem findCut_some_pos {cut : List Nat → Bool} {buf : List Nat} {n : Nat}
    (h : findCut cut buf = some n) : 1 ≤ n :=
  ((findCut_eq_some cut buf n).mp h).1

theorem findCut_some_le {cut : List Nat → Bool} {buf : List Nat} {n : Nat}
    (h : findCut cut buf = some n) : n ≤ buf.length :=
  ((findCut_eq_some cut buf n).mp h).2.1

/-- Earliest-match boundaries are stable under extending the buffer: a
boundary found in a partially filled buffer is the boundary of the full data. -/
theorem findCut_append {cut : List Nat → Bool} {buf : List Nat} {n : Nat}
    (ext : List Nat) (h : findCut cut buf = some n) :
    findCut cut (buf ++ ext) = some n := by
  rw [findCut_eq_some] at h
  obtain ⟨h1, h2, h3, h4⟩ := h
  have htake : ∀ q, q ≤ buf.length → (buf ++ ext).take q = buf.take q :=
    fun q hq => List.take_append_of_le_length hq
  rw [findCut_eq_some]
  refine ⟨h1, ?_, ?_, ?_⟩
  · rw [List.length_append]; omega
  · rw [htake n h2]; exact h3
  · intro q hq1 hq2
    rw [htake q (Nat.le_trans (Nat.le_of_lt hq2) h2)]
    exact h4 q hq1 hq2

/-! ## Reference chunk sequence -/

/-- The reference chunk sequence of a byte sequence: repeatedly cut at the
earliest boundary; when no boundary exists, the remaining bytes form a single
final chunk; empty data yields no chunks.  fuel bounds the recursion depth. -/
def chunksSpecF (cut : List Nat → Bool) : Nat → Nat → List Nat → List (Nat × List Nat)
  | 0, _, _ => []
  | _ + 1, _, [] => []
  | fuel + 1, off, d :: ds =>
    match findCut cut (d :: ds) with
    | some n => (off, (d :: ds).take n) :: chunksSpecF cut fuel (off + n) ((d :: ds).drop n)
    | none => [(off, d :: ds)]

theorem chunksSpecF_fuel (cut : List Nat → Bool) :
    ∀ (f f' off : Nat) (data : List Nat), data.length < f → data.length < f' →
      chunksSpecF cut f off data = chunksSpecF cut f' off data := by
  intro f
  induction f with
  | zero => intro f' off data h _; omega
  | succ f ih =>
    intro f' off data h h'
    match f', data with
    | 0, data => omega
    | f' + 1, [] => rfl
    | f' + 1, d :: ds =>
      cases hc : findCut cut (d :: ds) with
      | none => simp only [chunksSpecF, hc]
      | some n =>
        have hn1 : 1 ≤ n := findCut_some_pos hc
        have hn2 : n ≤ (d :: ds).length := findCut_some_le hc
        simp only [chunksSpecF, hc]
        rw [ih f' (off + n) ((d :: ds).drop n)
          (by rw [List.length_drop]; simp at h ⊢; omega)
          (by rw [List.length_drop]; simp at h' ⊢; omega)]

/-- The reference chunk sequence from a given offset. -/
def chunksFrom (cut : List Nat → Bool) (off : Nat) (data : List Nat) :
    List (Nat × List Nat) :=
  chunksSpecF cut (data.length + 1) off data

/-- The reference chunk sequence of a byte sequence. -/
def chunksOf (cut : List Nat → Bool) (data : List Nat) : List (Nat × List Nat) :=
  chunksFrom cut 0 data

theorem chunksFrom_nil (cut : List Nat → Bool) (off : Nat) :
    chunksFrom cut off [] = [] := rfl

theorem chunksFrom_eq_cons {cut : List Nat → Bool} {data : List Nat} {n : Nat}
    (off : Nat) (hd : data ≠ []) (h : findCut cut data = some n) :
    chunksFrom cut off data =
      (off, data.take n) :: chunksFrom cut (off + n) (data.drop n) := by
  match data with
  | [] => exact absurd rfl hd
  | d :: ds =>
    have hn1 : 1 ≤ n := findCut_some_pos h
    have hn2 : n ≤ (d :: ds).length := findCut_some_le h
    show chunksSpecF cut ((d :: ds).length + 1) off (d :: ds) = _
    simp only [chunksSpecF, h]
    rw [chunksSpecF_fuel cut ((d :: ds).length) (((d :: ds).drop n).length + 1)
      (off + n) ((d :: ds).drop n) (by rw [List.length_drop]; omega) (by omega)]
    rfl

theorem chunksFrom_eq_single {cut : List Nat → Bool} {data : List Nat}
    (off : Nat) (hd : data ≠ []) (h : findCut cut data = none) :
    chunksFrom cut off data = [(off, data)] := by
  match data with
  | [] => exact absurd rfl hd
  | d :: ds =>
    show chunksSpecF cut ((d :: ds).length + 1) off (d :: ds) = _
    simp only [chunksSpecF, h]

/-- Offset discipline of an emitted chunk list: the first offset equals the
base and each later offset is the previous offset plus the previous chunk
length. -/
def offsetsOk : Nat → List (Nat × List Nat) → Bool
  | _, [] => true
  | base, (off, c) :: rest => off == base && offsetsOk (base + c.length) rest

theorem chunksFrom_concat (cut : List Nat → Bool) :
    ∀ (fuel off : Nat) (data : List Nat), data.length < fuel →
      ((chunksSpecF cut fuel off data).map Prod.snd).flatten = data := by
  intro fuel
  induction fuel with
  | zero => intro off data h; omega
  | succ fuel ih =>
    intro off data h
    match data with
    | [] => rfl
    | d :: ds =>
      simp only [chunksSpecF]
      cases hc : findCut cut (d :: ds) with
      | none => simp
      | some n =>
        have hn1 : 1 ≤ n := findCut_some_pos hc
        have hn2 : n ≤ (d :: ds).length := findCut_some_le hc
        simp only [List.map_cons, List.flatten_cons]
        rw [ih (off + n) ((d :: ds).drop n) (by rw [List.length_drop]; simp at h ⊢; omega)]
        exact List.take_append_drop n (d :: ds)

theorem chunksFrom_offsets (cut : List Nat → Bool) :
    ∀ (fuel off : Nat) (data : List Nat), data.length < fuel →
      offsetsOk off (chunksSpecF cut fuel off data) = true := by
  intro fuel
  induction fuel with
  | zero => intro off data h; omega
  | succ fuel ih =>
    intro off data h
    match data with
    | [] => rfl
    | d :: ds =>
      simp only [chunksSpecF]
      cases hc : findCut cut (d :: ds) with
      | none => simp [offsetsOk]
      | some n =>
        have hn1 : 1 ≤ n := findCut_some_pos hc
        have hn2 : n ≤ (d :: ds).length := findCut_some_le hc
        simp only [offsetsOk, Bool.and_eq_true, beq_iff_eq]
        refine ⟨trivial, ?_⟩
        have hlen : ((d :: ds).take n).length = n := by
          rw [List.length_take]; omega
        rw [hlen]
        exact ih (off + n) ((d :: ds).drop n) (by rw [List.length_drop]; simp at h ⊢; omega)

theorem chunksFrom_ne_nil (cut : List Nat → Bool) :
    ∀ (fuel off : Nat) (data : List Nat), data.length < fuel →
      ∀ p ∈ chunksSpecF cut fuel off data, p.2 ≠ [] := by
  intro fuel
  induction fuel with
  | zero => intro off data h; omega
  | succ fuel ih =>
    intro off data h p hp
    match data with
    | [] => cases hp
    | d :: ds =>
      simp only [chunksSpecF] at hp
      revert hp
      cases hc : findCut cut (d :: ds) with
      | none =>
        intro hp
        simp only [List.mem_singleton] at hp
        subst hp
        simp
      | some n =>
        intro hp
        have hn1 : 1 ≤ n := findCut_some_pos hc
        have hn2 : n ≤ (d :: ds).length := findCut_some_le hc
        rcases List.mem_cons.mp hp with hp | hp
        · subst hp
          show (d :: ds).take n ≠ []
          intro hnil
          have hlen : ((d :: ds).take n).length = n := by
            rw [List.length_take]; omega
          rw [hnil] at hlen
          simp at hlen
          omega
        · exact ih (off + n) ((d :: ds).drop n)
            (by rw [List.length_drop]; simp at h ⊢; omega) p hp

/-! ## Blocking refill (refill_buf, blocking_chunker.rs) -/

/-- Number of bytes the chunker asks for per refill (REFILL_SIZE,
blocking_chunker.rs). -/
def REFILL_SIZE : Nat := 1024 * 1024

/-- A well-formed blocking reader script: a read returns zero bytes only at
end of input, which the script encodes by ending. -/
def SegsWF (segs : List (List Nat)) : Prop := ∀ s ∈ segs, s ≠ []

/-- Embeds refill_buf (blocking_chunker.rs): keep calling read until space
bytes have accumulated or the reader reports end of input (a zero-length
read).  The reader is modelled by the list of byte runs its successive read
calls return; each read yields at most the remaining space, the rest of an
oversized run staying with the reader.  Returns the bytes appended to the
chunk buffer and the remaining reader script. -/
def refillBuf (space : Nat) : List (List Nat) → List Nat × List (List Nat)
  | [] => ([], [])
  | s :: rest =>
    if space = 0 then ([], s :: rest)
    else if s = [] then ([], rest)
    else if s.length ≤ space then
      let r := refillBuf (space - s.length) rest
      (s ++ r.1, r.2)
    else (s.take space, s.drop space :: rest)

theorem refillBuf_fst (space : Nat) (segs : List (List Nat)) (hwf : SegsWF segs) :
    (refillBuf space segs).1 = segs.flatten.take space := by
  induction segs generalizing space with
  | nil => simp [refillBuf]
  | cons s rest ih =>
    have hs : s ≠ [] := hwf s (List.mem_cons_self s rest)
    have hrest : SegsWF rest := fun t ht => hwf t (List.mem_cons_of_mem s ht)
    simp only [refillBuf, List.flatten_cons]
    by_cases h0 : space = 0
    · simp [h0]
    · rw [if_neg h0, if_neg hs]
      by_cases hle : s.length ≤ space
      · rw [if_pos hle]
        simp only
        rw [ih (space - s.length) hrest, List.take_append_eq_append_take,
          List.take_of_length_le hle]
      · rw [if_neg hle]
        simp only
        rw [List.take_append_of_le_length (by omega)]

theorem refillBuf_snd (space : Nat) (segs : List (List Nat)) (hwf : SegsWF segs) :
    (refillBuf space segs).2.flatten = segs.flatten.drop space := by
  induction segs generalizing space with
  | nil => simp [refillBuf]
  | cons s rest ih =>
    have hs : s ≠ [] := hwf s (List.mem_cons_self s rest)
    have hrest : SegsWF rest := fun t ht => hwf t (List.mem_cons_of_mem s ht)
    simp only [refillBuf, List.flatten_cons]
    by_cases h0 : space = 0
    · simp [h0]
    · rw [if_neg h0, if_neg hs]
      by_cases hle : s.length ≤ space
      · rw [if_pos hle]
        simp only
        rw [ih (space - s.length) hrest, List.drop_append_eq_append_drop,
          List.drop_of_length_le hle, List.nil_append]
      · rw [if_neg hle]
        simp only [List.flatten_cons]
        rw [List.drop_append_of_le_length (by omega)]

theorem refillBuf_wf (space : Nat) (segs : List (List Nat)) (hwf : SegsWF segs) :
    SegsWF (refillBuf space segs).2 := by
  induction segs generalizing space with
  | nil => intro t ht; cases ht
  | cons s rest ih =>
    have hs : s ≠ [] := hwf s (List.mem_cons_self s rest)
    have hrest : SegsWF rest := fun t ht => hwf t (List.mem_cons_of_mem s ht)
    simp only [refillBuf]
    by_cases h0 : space = 0
    · rw [if_pos h0]; exact hwf
    · rw [if_neg h0, if_neg hs]
      by_cases hle : s.length ≤ space
      · rw [if_pos hle]
        exact ih (space - s.length) hrest
      · rw [if_neg hle]
        intro t ht
        rcases List.mem_cons.mp ht with ht | ht
        · subst ht
          intro hnil
          have := congrArg List.length hnil
          rw [List.length_drop] at this
          simp at this
          omega
        · exact hrest t ht

theorem refillBuf_fst_nil {space : Nat} {segs : List (List Nat)}
    (hwf : SegsWF segs) (hspace : space ≠ 0)
    (h : (refillBuf space segs).1 = []) : segs.flatten = [] := by
  rw [refillBuf_fst space segs hwf] at h
  rcases List.take_eq_nil_iff.mp h with h | h
  · exact absurd h hspace
  · exact h

/-! ## Blocking chunker driver (BlockingChunker.next_chunk) -/

/-- Embeds the loop of BlockingChunker.next_chunk (blocking_chunker.rs),
iterated until the chunker is exhausted: while the buffer holds a chunk, split
it off and emit it with the running offset; otherwise refill; a refill of zero
bytes with an empty buffer ends the stream, with a nonempty buffer it emits
the whole buffer as the final chunk.  fuel bounds the number of iterations. -/
def chunkLoop (cut : List Nat → Bool) :
    Nat → Nat → List Nat → List (List Nat) → List (Nat × List Nat)
  | 0, _, _, _ => []
  | fuel + 1, chunkStart, buf, segs =>
    match (if buf = [] then none else findCut cut buf) with
    | some n =>
      (chunkStart, buf.take n) :: chunkLoop cut fuel (chunkStart + n) (buf.drop n) segs
    | none =>
      let r := refillBuf REFILL_SIZE segs
      if r.1 = [] then
        if buf = [] then [] else [(chunkStart, buf)]
      else chunkLoop cut fuel chunkStart (buf ++ r.1) r.2

/-- Run a fresh BlockingChunker over a reader script to exhaustion. -/
def runChunker (cut : List Nat → Bool) (segs : List (List Nat)) :
    List (Nat × List Nat) :=
  chunkLoop cut (2 * segs.flatten.length + 1) 0 [] segs

theorem chunkLoop_emit {cut : List Nat → Bool} {buf : List Nat} {n : Nat}
    (fuel off : Nat) (segs : List (List Nat)) (hbuf : buf ≠ [])
    (hc : findCut cut buf = some n) :
    chunkLoop cut (fuel + 1) off buf segs =
      (off, buf.take n) :: chunkLoop cut fuel (off + n) (buf.drop n) segs := by
  simp only [chunkLoop, if_neg hbuf, hc]

theorem chunkLoop_refill {cut : List Nat → Bool} {buf : List Nat}
    (fuel off : Nat) (segs : List (List Nat))
    (hc : (if buf = [] then none else findCut cut buf) = none) :
    chunkLoop cut (fuel + 1) off buf segs =
      if (refillBuf REFILL_SIZE segs).1 = [] then
        (if buf = [] then [] else [(off, buf)])
      else chunkLoop cut fuel off (buf ++ (refillBuf REFILL_SIZE segs).1)
        (refillBuf REFILL_SIZE segs).2 := by
  simp only [chunkLoop, hc]

theorem chunkLoop_eq_chunksFrom (cut : List Nat → Bool) :
    ∀ (fuel off : Nat) (buf : List Nat) (segs : List (List Nat)),
      SegsWF segs → buf.length + 2 * segs.flatten.length < fuel →
      chunkLoop cut fuel off buf segs = chunksFrom cut off (buf ++ segs.flatten) := by
  intro fuel
  induction fuel with
  | zero => intro off buf segs _ h; omega
  | succ fuel ih =>
    intro off buf segs hwf hfuel
    have hrfst := refillBuf_fst REFILL_SIZE segs hwf
    have hrsnd := refillBuf_snd REFILL_SIZE segs hwf
    have hrwf := refillBuf_wf REFILL_SIZE segs hwf
    have htd : (refillBuf REFILL_SIZE segs).1 ++ (refillBuf REFILL_SIZE segs).2.flatten
        = segs.flatten := by
      rw [hrfst, hrsnd]
      exact List.take_append_drop REFILL_SIZE segs.flatten
    have hlentd := congrArg List.length htd
    rw [List.length_append] at hlentd
    have hguard : buf ≠ [] → findCut cut buf = none →
        (if buf = [] then none else findCut cut buf) = none := by
      intro h1 h2; rw [if_neg h1, h2]
    by_cases hbuf : buf = []
    · subst hbuf
      rw [chunkLoop_refill fuel off segs (by rw [if_pos rfl])]
      by_cases hr : (refillBuf REFILL_SIZE segs).1 = []
      · have hflat : segs.flatten = [] :=
          refillBuf_fst_nil hwf (by simp [REFILL_SIZE]) hr
        rw [if_pos hr, if_pos rfl, List.nil_append, hflat, chunksFrom_nil]
      · rw [if_neg hr]
        have hrlen : 1 ≤ (refillBuf REFILL_SIZE segs).1.length :=
          List.length_pos.mpr hr
        rw [ih off ([] ++ (refillBuf REFILL_SIZE segs).1)
          ((refillBuf REFILL_SIZE segs).2) hrwf
          (by rw [List.length_append]; simp only [List.length_nil] at hfuel ⊢; omega)]
        rw [List.nil_append, List.nil_append, htd]
    · cases hc : findCut cut buf with
      | some n =>
        have hn1 : 1 ≤ n := findCut_some_pos hc
        have hn2 : n ≤ buf.length := findCut_some_le hc
        rw [chunkLoop_emit fuel off segs hbuf hc]
        rw [chunksFrom_eq_cons off (by simp [hbuf]) (findCut_append segs.flatten hc)]
        rw [List.take_append_of_le_length hn2, List.drop_append_of_le_length hn2]
        rw [ih (off + n) (buf.drop n) segs hwf (by rw [List.length_drop]; omega)]
      | none =>
        rw [chunkLoop_refill fuel off segs (hguard hbuf hc)]
        by_cases hr : (refillBuf REFILL_SIZE segs).1 = []
        · have hflat : segs.flatten = [] :=
            refillBuf_fst_nil hwf (by simp [REFILL_SIZE]) hr
          rw [if_pos hr, if_neg hbuf, hflat, List.append_nil]
          rw [chunksFrom_eq_single off hbuf hc]
        · rw [if_neg hr]
          have hrlen : 1 ≤ (refillBuf REFILL_SIZE segs).1.length :=
            List.length_pos.mpr hr
          rw [ih off (buf ++ (refillBuf REFILL_SIZE segs).1)
            ((refillBuf REFILL_SIZE segs).2) hrwf
            (by rw [List.length_append]; omega)]
          rw [List.append_assoc, htd]

theorem runChunker_eq_chunksOf (cut : List Nat → Bool) (segs : List (List Nat))
    (hwf : SegsWF segs) : runChunker cut segs = chunksOf cut segs.flatten := by
  show chunkLoop cut (2 * segs.flatten.length + 1) 0 [] segs = _
  rw [chunkLoop_eq_chunksFrom cut (2 * segs.flatten.length + 1) 0 [] segs hwf
    (by simp only [List.length_nil]; omega)]
  rw [List.nil_append]
  rfl

/-- C1: for every boundary policy and every byte source, the sequence of
(offset, chunk) pairs produced by iterating BlockingChunker.next_chunk
partitions the source: concatenating the chunks in emission order yields the
source bytes exactly, the first offset is 0 and each next offset is the
previous offset plus the previous chunk length, and an empty source emits no
chunks (at end of input the remaining buffered bytes form one final chunk,
which is the single-chunk case of the partition). -/
theorem blocking_chunker_partitions (cut : List Nat → Bool)
    (segs : List (List Nat)) (hwf : SegsWF segs) :
    ((runChunker cut segs).map Prod.snd).flatten = segs.flatten
      ∧ offsetsOk 0 (runChunker cut segs) = true
      ∧ (segs.flatten = [] → runChunker cut segs = []) := by
  rw [runChunker_eq_chunksOf cut segs hwf]
  refine ⟨?_, ?_, ?_⟩
  · exact chunksFrom_concat cut (segs.flatten.length + 1) 0 segs.flatten
      (Nat.lt_succ_self _)
  · exact chunksFrom_offsets cut (segs.flatten.length + 1) 0 segs.flatten
      (Nat.lt_succ_self _)
  · intro h
    rw [h]
    rfl

theorem blocking_chunker_partitions_witness :
    SegsWF [[1, 2], [3, 4, 5]] ∧
      ((runChunker (fun l => decide (l.length = 3)) [[1, 2], [3, 4, 5]]).map
          Prod.snd).flatten = [1, 2, 3, 4, 5] := by
  have hwf : SegsWF [[1, 2], [3, 4, 5]] := by
    unfold SegsWF
    decide
  refine ⟨hwf, ?_⟩
  have h := blocking_chunker_partitions (fun l => decide (l.length = 3))
    [[1, 2], [3, 4, 5]] hwf
  exact h.1

/-! ## Polling refill (refill_read_buf, chunker/mod.rs) -/

/-- Buffer size the polling chunker asks for per refill (CHUNKER_BUF_SIZE,
chunker/mod.rs). -/
def CHUNKER_BUF_SIZE : Nat := 1024 * 1024

/-- One poll of an error-free asynchronous reader: either a run of bytes is
ready or the reader would suspend (Poll.Pending).  The end of the script is
end of input. -/
inductive ReadEvent where
  | pend : ReadEvent
  | dat : List Nat → ReadEvent
deriving DecidableEq, Repr

/-- Result of one refill_read_buf call. -/
inductive PollRes where
  | pending : PollRes
  | ready : List Nat → PollRes
deriving DecidableEq, Repr

/-- A well-formed polling script: a poll returns an empty run only at end of
input, which the script encodes by ending. -/
def EventsWF (evs : List ReadEvent) : Prop := ∀ b, ReadEvent.dat b ∈ evs → b ≠ []

/-- Bytes delivered by a polling script. -/
def eventBytes : List ReadEvent → List Nat
  | [] => []
  | ReadEvent.pend :: rest => eventBytes rest
  | ReadEvent.dat b :: rest => b ++ eventBytes rest

/-- Embeds refill_read_buf (chunker/mod.rs): poll the source until want bytes
have accumulated; a poll of zero bytes is end of input and stops the loop; on
Poll.Pending the partial count is returned when nonzero, else Pending is
returned.  acc holds the bytes read so far; each poll yields at most the
remaining space, the rest of an oversized run staying with the reader.
Returns the poll outcome and the remaining script. -/
def refillRead (want : Nat) (acc : List Nat) :
    List ReadEvent → PollRes × List ReadEvent
  | [] => (PollRes.ready acc, [])
  | e :: rest =>
    if want ≤ acc.length then (PollRes.ready acc, e :: rest)
    else
      match e with
      | ReadEvent.pend =>
        if acc = [] then (PollRes.pending, rest) else (PollRes.ready acc, rest)
      | ReadEvent.dat b =>
        if b = [] then (PollRes.ready acc, rest)
        else if b.length ≤ want - acc.length then refillRead want (acc ++ b) rest
        else
          (PollRes.ready (acc ++ b.take (want - acc.length)),
            ReadEvent.dat (b.drop (want - acc.length)) :: rest)

theorem refillRead_pending {want : Nat} :
    ∀ {acc : List Nat} {evs evs' : List ReadEvent},
      refillRead want acc evs = (PollRes.pending, evs') →
      acc = [] ∧ evs = ReadEvent.pend :: evs' := by
  intro acc evs
  induction evs generalizing acc with
  | nil =>
    intro evs' h
    simp only [refillRead] at h
    cases h
  | cons e rest ih =>
    intro evs' h
    simp only [refillRead] at h
    by_cases hw : want ≤ acc.length
    · rw [if_pos hw] at h; cases h
    · rw [if_neg hw] at h
      match e with
      | ReadEvent.pend =>
        dsimp only at h
        by_cases ha : acc = []
        · rw [if_pos ha] at h
          injection h with h1 h2
          subst h2
          exact ⟨ha, rfl⟩
        · rw [if_neg ha] at h; cases h
      | ReadEvent.dat b =>
        dsimp only at h
        by_cases hb : b = []
        · rw [if_pos hb] at h; cases h
        · rw [if_neg hb] at h
          by_cases hlen : b.length ≤ want - acc.length
          · rw [if_pos hlen] at h
            rcases ih h with ⟨h1, _⟩
            rcases List.append_eq_nil.mp h1 with ⟨_, h3⟩
            exact absurd h3 hb
          · rw [if_neg hlen] at h; cases h

theorem refillRead_ready {want : Nat} (hwant : 0 < want) :
    ∀ {acc bs : List Nat} {evs evs' : List ReadEvent},
      EventsWF evs → refillRead want acc evs = (PollRes.ready bs, evs') →
      EventsWF evs' ∧ bs ++ eventBytes evs' = acc ++ eventBytes evs ∧
        evs'.length ≤ evs.length ∧ (∃ t, bs = acc ++ t) ∧
        (bs = [] → acc = [] ∧ evs = []) := by
  intro acc bs evs
  induction evs generalizing acc with
  | nil =>
    intro evs' hwf h
    simp only [refillRead] at h
    injection h with h1 h2
    injection h1 with h1
    subst h1; subst h2
    refine ⟨hwf, by simp [eventBytes], Nat.le_refl _, ⟨[], by simp⟩, ?_⟩
    intro hb
    exact ⟨hb, rfl⟩
  | cons e rest ih =>
    intro evs' hwf h
    have hrest : EventsWF rest := fun b hb => hwf b (List.mem_cons_of_mem e hb)
    simp only [refillRead] at h
    by_cases hw : want ≤ acc.length
    · rw [if_pos hw] at h
      injection h with h1 h2
      injection h1 with h1
      subst h1; subst h2
      refine ⟨hwf, rfl, Nat.le_refl _, ⟨[], by simp⟩, ?_⟩
      intro hb
      subst hb
      simp at hw
      omega
    · rw [if_neg hw] at h
      match e with
      | ReadEvent.pend =>
        dsimp only at h
        by_cases ha : acc = []
        · rw [if_pos ha] at h; cases h
        · rw [if_neg ha] at h
          injection h with h1 h2
          injection h1 with h1
          subst h1; subst h2
          exact ⟨hrest, by simp [eventBytes], by simp, ⟨[], by simp⟩,
            fun hb => absurd hb ha⟩
      | ReadEvent.dat b =>
        dsimp only at h
        have hb : b ≠ [] := hwf b (List.mem_cons_self _ _)
        rw [if_neg hb] at h
        by_cases hlen : b.length ≤ want - acc.length
        · rw [if_pos hlen] at h
          obtain ⟨hwf', hbytes, hshort, ⟨t, ht⟩, hnil⟩ := ih hrest h
          refine ⟨hwf', ?_, by simp; omega, ⟨b ++ t, by rw [ht, List.append_assoc]⟩, ?_⟩
          · rw [hbytes]
            simp [eventBytes]
          · intro hbs
            rcases hnil hbs with ⟨h1, _⟩
            rcases List.append_eq_nil.mp h1 with ⟨_, h3⟩
            exact absurd h3 hb
        · rw [if_neg hlen] at h
          injection h with h1 h2
          injection h1 with h1
          subst h1; subst h2
          have htd : b.take (want - acc.length) ++ b.drop (want - acc.length) = b :=
            List.take_append_drop _ b
          refine ⟨?_, ?_, by simp, ⟨b.take (want - acc.length), rfl⟩, ?_⟩
          · intro c hc
            rcases List.mem_cons.mp hc with hc | hc
            · injection hc with hc
              subst hc
              intro hnil
              have := congrArg List.length hnil
              rw [List.length_drop] at this
              simp at this
              omega
            · exact hrest c hc
          · simp only [eventBytes, List.append_assoc]
            rw [← List.append_assoc (b.take (want - acc.length)), htd]
          · intro hbs
            rcases List.append_eq_nil.mp hbs with ⟨h1, h2⟩
            have hmin := congrArg List.length h2
            rw [List.length_take] at hmin
            simp only [List.length_nil] at hmin
            omega

/-! ## Polling chunker driver -/

/-- Modelled from the spec: the polling chunker (the poll_chunk
implementation of RollingHashChunker / FixedSizeChunker, not part of the
source snapshot) repeats the same loop as the blocking driver, refilling
through refill_read_buf; when the reader would suspend it surrenders control
to the caller and is polled again with no loss of state; a refill of zero
bytes is end of input and any remaining buffered bytes form the final
chunk. -/
def pollLoop (cut : List Nat → Bool) :
    Nat → Nat → List Nat → List ReadEvent → List (Nat × List Nat)
  | 0, _, _, _ => []
  | fuel + 1, off, buf, evs =>
    match (if buf = [] then none else findCut cut buf) with
    | some n =>
      (off, buf.take n) :: pollLoop cut fuel (off + n) (buf.drop n) evs
    | none =>
      match refillRead CHUNKER_BUF_SIZE [] evs with
      | (PollRes.pending, evs') => pollLoop cut fuel off buf evs'
      | (PollRes.ready [], _) => if buf = [] then [] else [(off, buf)]
      | (PollRes.ready bs, evs') => pollLoop cut fuel off (buf ++ bs) evs'

/-- Run the polling chunker over a script to exhaustion, polling again
whenever it returns Pending. -/
def runPollChunker (cut : List Nat → Bool) (evs : List ReadEvent) :
    List (Nat × List Nat) :=
  pollLoop cut (2 * (eventBytes evs).length + evs.length + 1) 0 [] evs

theorem pollLoop_emit {cut : List Nat → Bool} {buf : List Nat} {n : Nat}
    (fuel off : Nat) (evs : List ReadEvent) (hbuf : buf ≠ [])
    (hc : findCut cut buf = some n) :
    pollLoop cut (fuel + 1) off buf evs =
      (off, buf.take n) :: pollLoop cut fuel (off + n) (buf.drop n) evs := by
  simp only [pollLoop, if_neg hbuf, hc]

theorem pollLoop_refill {cut : List Nat → Bool} {buf : List Nat}
    (fuel off : Nat) (evs : List ReadEvent)
    (hc : (if buf = [] then none else findCut cut buf) = none) :
    pollLoop cut (fuel + 1) off buf evs =
      match refillRead CHUNKER_BUF_SIZE [] evs with
      | (PollRes.pending, evs') => pollLoop cut fuel off buf evs'
      | (PollRes.ready [], _) => if buf = [] then [] else [(off, buf)]
      | (PollRes.ready bs, evs') => pollLoop cut fuel off (buf ++ bs) evs' := by
  simp only [pollLoop, hc]

theorem pollLoop_eq_chunksFrom (cut : List Nat → Bool) :
    ∀ (fuel off : Nat) (buf : List Nat) (evs : List ReadEvent),
      EventsWF evs →
      buf.length + 2 * (eventBytes evs).length + evs.length < fuel →
      pollLoop cut fuel off buf evs = chunksFrom cut off (buf ++ eventBytes evs) := by
  intro fuel
  induction fuel with
  | zero => intro off buf evs _ h; omega
  | succ fuel ih =>
    intro off buf evs hwf hfuel
    have hwantpos : 0 < CHUNKER_BUF_SIZE := by simp [CHUNKER_BUF_SIZE]
    rcases hemit : (if buf = [] then none else findCut cut buf) with _ | n
    · -- refill branch
      rw [pollLoop_refill fuel off evs hemit]
      rcases hres : refillRead CHUNKER_BUF_SIZE [] evs with ⟨res, evs2⟩
      cases res with
      | pending =>
        dsimp only
        obtain ⟨-, hevs⟩ := refillRead_pending hres
        subst hevs
        have hwf2 : EventsWF evs2 := fun b hb => hwf b (List.mem_cons_of_mem _ hb)
        rw [ih off buf evs2 hwf2 (by
          simp only [eventBytes, List.length_cons] at hfuel
          omega)]
        rfl
      | ready bs =>
        obtain ⟨hwf2, hbytes, hlen, ⟨t, ht⟩, hnil⟩ :=
          refillRead_ready hwantpos hwf hres
        rw [List.nil_append] at hbytes
        cases bs with
        | nil =>
          dsimp only
          obtain ⟨-, hevs⟩ := hnil rfl
          subst hevs
          by_cases hbuf : buf = []
          · rw [if_pos hbuf, hbuf]
            rfl
          · rw [if_neg hbuf]
            have hc : findCut cut buf = none := by
              rw [if_neg hbuf] at hemit; exact hemit
            rw [show eventBytes ([] : List ReadEvent) = [] from rfl, List.append_nil]
            rw [chunksFrom_eq_single off hbuf hc]
        | cons b bs' =>
          dsimp only
          have hblen := congrArg List.length hbytes
          rw [List.length_append, List.length_cons] at hblen
          rw [ih off (buf ++ (b :: bs')) evs2 hwf2 (by
            rw [List.length_append, List.length_cons]
            omega)]
          rw [List.append_assoc, hbytes]
    · -- emit branch
      have hbuf : buf ≠ [] := by
        intro h
        rw [if_pos h] at hemit
        cases hemit
      have hc : findCut cut buf = some n := by
        rw [if_neg hbuf] at hemit
        exact hemit
      have hn1 := findCut_some_pos hc
      have hn2 := findCut_some_le hc
      rw [pollLoop_emit fuel off evs hbuf hc]
      rw [chunksFrom_eq_cons off (by simp [hbuf]) (findCut_append (eventBytes evs) hc)]
      rw [List.take_append_of_le_length hn2, List.drop_append_of_le_length hn2]
      rw [ih (off + n) (buf.drop n) evs hwf (by rw [List.length_drop]; omega)]

theorem runPollChunker_eq_chunksOf (cut : List Nat → Bool) (evs : List ReadEvent)
    (hwf : EventsWF evs) : runPollChunker cut evs = chunksOf cut (eventBytes evs) := by
  show pollLoop cut (2 * (eventBytes evs).length + evs.length + 1) 0 [] evs = _
  rw [pollLoop_eq_chunksFrom cut (2 * (eventBytes evs).length + evs.length + 1)
    0 [] evs hwf (by simp only [List.length_nil]; omega)]
  rw [List.nil_append]
  rfl

/-- C6: chunker output is independent of source I/O granularity and of
operating mode.  For every boundary policy, every blocking reader script
(reads of any sizes, in particular at most k bytes per read for any k) and
every polling reader script (reads of any sizes, with Pending interleaved
anywhere) that deliver the same bytes, the blocking pull mode and the
non-blocking polling mode both emit exactly the reference (offset, bytes)
sequence of those bytes, hence identical sequences. -/
theorem chunker_granularity_and_mode_independent (cut : List Nat → Bool)
    (segs : List (List Nat)) (evs : List ReadEvent)
    (hs : SegsWF segs) (he : EventsWF evs)
    (hsame : segs.flatten = eventBytes evs) :
    runChunker cut segs = chunksOf cut segs.flatten
      ∧ runPollChunker cut evs = chunksOf cut segs.flatten
      ∧ runChunker cut segs = runPollChunker cut evs := by
  have h1 := runChunker_eq_chunksOf cut segs hs
  have h2 := runPollChunker_eq_chunksOf cut evs he
  rw [← hsame] at h2
  exact ⟨h1, h2, by rw [h1, h2]⟩

theorem chunker_granularity_and_mode_independent_witness :
    SegsWF [[1], [2, 3], [4, 5]]
      ∧ EventsWF [ReadEvent.pend, ReadEvent.dat [1, 2], ReadEvent.pend,
          ReadEvent.dat [3], ReadEvent.dat [4, 5]]
      ∧ [[1], [2, 3], [4, 5]].flatten = eventBytes [ReadEvent.pend,
          ReadEvent.dat [1, 2], ReadEvent.pend, ReadEvent.dat [3],
          ReadEvent.dat [4, 5]]
      ∧ runChunker (fun l => decide (l.length = 3)) [[1], [2, 3], [4, 5]]
          = runPollChunker (fun l => decide (l.length = 3))
              [ReadEvent.pend, ReadEvent.dat [1, 2], ReadEvent.pend,
                ReadEvent.dat [3], ReadEvent.dat [4, 5]] := by
  have hs : SegsWF [[1], [2, 3], [4, 5]] := by
    unfold SegsWF
    decide
  have he : EventsWF [ReadEvent.pend, ReadEvent.dat [1, 2], ReadEvent.pend,
      ReadEvent.dat [3], ReadEvent.dat [4, 5]] := by
    intro b hb hbnil
    subst hbnil
    simp at hb
  refine ⟨hs, he, rfl, ?_⟩
  exact (chunker_granularity_and_mode_independent (fun l => decide (l.length = 3))
    [[1], [2, 3], [4, 5]] [ReadEvent.pend, ReadEvent.dat [1, 2], ReadEvent.pend,
      ReadEvent.dat [3], ReadEvent.dat [4, 5]] hs he rfl).2.2

/-! ## Raw-buffer refill (the unsafe set_len discipline) -/

/-- A blocking read outcome for the refill helpers: a run of bytes or an I/O
error from the reader. -/
inductive BReadEvent where
  | dat : List Nat → BReadEvent
  | ioErr : BReadEvent
deriving DecidableEq, Repr

/-- Result of refill_buf. -/
inductive BReadRes where
  | ok : Nat → BReadRes
  | ioErr : BReadRes
deriving DecidableEq, Repr

/-- In-place write of bytes into buf at offset off, as reader.read writes
into the slice starting at that offset. -/
def writeAt (buf : List Nat) (off : Nat) (bytes : List Nat) : List Nat :=
  buf.take off ++ bytes ++ buf.drop (off + bytes.length)

/-- Embeds the read loop of refill_buf (blocking_chunker.rs) at raw-buffer
level: set_len has grown buf to len0 + want, the grown tail holding arbitrary
uninitialized bytes; rd bytes have been read so far, reading resumes at
offset len0 + rd; each read yields at most the remaining space; a zero-length
read is end of input.  Every exit path, the error exit included, resizes the
buffer to len0 plus the bytes actually read. -/
def refillRawLoop (want : Nat) : List BReadEvent → Nat → Nat → List Nat →
    BReadRes × List Nat × List BReadEvent
  | evs, rd, len0, buf =>
    if want ≤ rd then (BReadRes.ok rd, buf.take (len0 + rd), evs)
    else
      match evs with
      | [] => (BReadRes.ok rd, buf.take (len0 + rd), [])
      | BReadEvent.ioErr :: rest => (BReadRes.ioErr, buf.take (len0 + rd), rest)
      | BReadEvent.dat b :: rest =>
        if b = [] then (BReadRes.ok rd, buf.take (len0 + rd), rest)
        else if b.length ≤ want - rd then
          refillRawLoop want rest (rd + b.length) len0 (writeAt buf (len0 + rd) b)
        else
          (BReadRes.ok want,
            (writeAt buf (len0 + rd) (b.take (want - rd))).take (len0 + want),
            BReadEvent.dat (b.drop (want - rd)) :: rest)

/-- refill_buf with the unsafe set_len made explicit: the buffer is grown
past its initialized length by junk.length arbitrary uninitialized bytes and
the read loop then wants exactly that many bytes. -/
def refillBufRaw (buf0 junk : List Nat) (evs : List BReadEvent) :
    BReadRes × List Nat × List BReadEvent :=
  refillRawLoop junk.length evs 0 buf0.length (buf0 ++ junk)

/-- A polled read outcome for refill_read_buf: a run of bytes, Pending, or an
I/O error. -/
inductive PollEvent where
  | pend : PollEvent
  | dat : List Nat → PollEvent
  | ioErr : PollEvent
deriving DecidableEq, Repr

/-- Result of refill_read_buf. -/
inductive PollReadRes where
  | pending : PollReadRes
  | ok : Nat → PollReadRes
  | ioErr : PollReadRes
deriving DecidableEq, Repr

/-- Embeds the read loop of refill_read_buf (chunker/mod.rs) at raw-buffer
level, like refillRawLoop; additionally, when the source would suspend the
loop resizes the buffer and returns the partial count when it is nonzero,
else Pending. -/
def refillReadRawLoop (want : Nat) : List PollEvent → Nat → Nat → List Nat →
    PollReadRes × List Nat × List PollEvent
  | evs, rd, len0, buf =>
    if want ≤ rd then (PollReadRes.ok rd, buf.take (len0 + rd), evs)
    else
      match evs with
      | [] => (PollReadRes.ok rd, buf.take (len0 + rd), [])
      | PollEvent.pend :: rest =>
        if rd = 0 then (PollReadRes.pending, buf.take (len0 + rd), rest)
        else (PollReadRes.ok rd, buf.take (len0 + rd), rest)
      | PollEvent.ioErr :: rest => (PollReadRes.ioErr, buf.take (len0 + rd), rest)
      | PollEvent.dat b :: rest =>
        if b = [] then (PollReadRes.ok rd, buf.take (len0 + rd), rest)
        else if b.length ≤ want - rd then
          refillReadRawLoop want rest (rd + b.length) len0 (writeAt buf (len0 + rd) b)
        else
          (PollReadRes.ok want,
            (writeAt buf (len0 + rd) (b.take (want - rd))).take (len0 + want),
            PollEvent.dat (b.drop (want - rd)) :: rest)

/-- refill_read_buf with the unsafe set_len made explicit. -/
def refillReadRaw (buf0 junk : List Nat) (evs : List PollEvent) :
    PollReadRes × List Nat × List PollEvent :=
  refillReadRawLoop junk.length evs 0 buf0.length (buf0 ++ junk)

theorem writeAt_length {buf bytes : List Nat} {off : Nat}
    (h : off + bytes.length ≤ buf.length) :
    (writeAt buf off bytes).length = buf.length := by
  unfold writeAt
  rw [List.length_append, List.length_append, List.length_take, List.length_drop]
  omega

theorem writeAt_take {buf bytes : List Nat} {off : Nat} (h : off ≤ buf.length) :
    (writeAt buf off bytes).take (off + bytes.length) = buf.take off ++ bytes := by
  unfold writeAt
  refine List.take_left' ?_
  rw [List.length_append, List.length_take]
  omega

theorem refillRawLoop_stop {want rd : Nat} (evs : List BReadEvent)
    (len0 : Nat) (buf : List Nat) (hw : want ≤ rd) :
    refillRawLoop want evs rd len0 buf
      = (BReadRes.ok rd, buf.take (len0 + rd), evs) := by
  rw [refillRawLoop.eq_def]
  dsimp only
  rw [if_pos hw]

theorem refillRawLoop_nil {want rd : Nat} (len0 : Nat) (buf : List Nat)
    (hw : ¬want ≤ rd) :
    refillRawLoop want [] rd len0 buf
      = (BReadRes.ok rd, buf.take (len0 + rd), []) := by
  rw [refillRawLoop.eq_def]
  dsimp only
  rw [if_neg hw]

theorem refillRawLoop_err {want rd : Nat} (rest : List BReadEvent)
    (len0 : Nat) (buf : List Nat) (hw : ¬want ≤ rd) :
    refillRawLoop want (BReadEvent.ioErr :: rest) rd len0 buf
      = (BReadRes.ioErr, buf.take (len0 + rd), rest) := by
  rw [refillRawLoop.eq_def]
  dsimp only
  rw [if_neg hw]

theorem refillRawLoop_dat {want rd : Nat} (b : List Nat)
    (rest : List BReadEvent) (len0 : Nat) (buf : List Nat) (hw : ¬want ≤ rd) :
    refillRawLoop want (BReadEvent.dat b :: rest) rd len0 buf
      = if b = [] then (BReadRes.ok rd, buf.take (len0 + rd), rest)
        else if b.length ≤ want - rd then
          refillRawLoop want rest (rd + b.length) len0 (writeAt buf (len0 + rd) b)
        else
          (BReadRes.ok want,
            (writeAt buf (len0 + rd) (b.take (want - rd))).take (len0 + want),
            BReadEvent.dat (b.drop (want - rd)) :: rest) := by
  rw [refillRawLoop.eq_def]
  dsimp only
  rw [if_neg hw]

theorem refillRawLoop_spec (want : Nat) :
    ∀ (evs : List BReadEvent) (rd len0 : Nat) (buf : List Nat),
      rd ≤ want → buf.length = len0 + want →
      ∃ t, (refillRawLoop want evs rd len0 buf).2.1 = buf.take (len0 + rd) ++ t ∧
        rd + t.length ≤ want ∧
        (∀ n, (refillRawLoop want evs rd len0 buf).1 = BReadRes.ok n →
          n = rd + t.length) := by
  intro evs
  induction evs with
  | nil =>
    intro rd len0 buf hrd hlen
    by_cases hw : want ≤ rd
    · rw [refillRawLoop_stop [] len0 buf hw]
      exact ⟨[], by rw [List.append_nil], by simpa using hrd, fun n h => by
        have h2 : BReadRes.ok rd = BReadRes.ok n := h
        injection h2 with h2
        simpa using h2.symm⟩
    · rw [refillRawLoop_nil len0 buf hw]
      exact ⟨[], by rw [List.append_nil], by simpa using hrd, fun n h => by
        have h2 : BReadRes.ok rd = BReadRes.ok n := h
        injection h2 with h2
        simpa using h2.symm⟩
  | cons e rest ih =>
    intro rd len0 buf hrd hlen
    by_cases hw : want ≤ rd
    · rw [refillRawLoop_stop (e :: rest) len0 buf hw]
      exact ⟨[], by rw [List.append_nil], by simpa using hrd, fun n h => by
        have h2 : BReadRes.ok rd = BReadRes.ok n := h
        injection h2 with h2
        simpa using h2.symm⟩
    · match e with
      | BReadEvent.ioErr =>
        rw [refillRawLoop_err rest len0 buf hw]
        exact ⟨[], by rw [List.append_nil], by simpa using hrd, fun n h => by
          have h2 : BReadRes.ioErr = BReadRes.ok n := h
          cases h2⟩
      | BReadEvent.dat b =>
        rw [refillRawLoop_dat b rest len0 buf hw]
        by_cases hb : b = []
        · rw [if_pos hb]
          exact ⟨[], by rw [List.append_nil], by simpa using hrd, fun n h => by
            have h2 : BReadRes.ok rd = BReadRes.ok n := h
            injection h2 with h2
            simpa using h2.symm⟩
        · rw [if_neg hb]
          by_cases hsp : b.length ≤ want - rd
          · rw [if_pos hsp]
            have hwlen : (writeAt buf (len0 + rd) b).length = len0 + want := by
              rw [writeAt_length (by omega)]
              exact hlen
            obtain ⟨t, ht1, ht2, ht3⟩ := ih (rd + b.length) len0
              (writeAt buf (len0 + rd) b) (by omega) hwlen
            refine ⟨b ++ t, ?_, ?_, ?_⟩
            · rw [ht1]
              have harith : len0 + (rd + b.length) = (len0 + rd) + b.length := by
                omega
              rw [harith, writeAt_take (by omega), List.append_assoc]
            · rw [List.length_append]
              omega
            · intro n h
              have := ht3 n h
              rw [List.length_append]
              omega
          · rw [if_neg hsp]
            have hlentake : (b.take (want - rd)).length = want - rd := by
              rw [List.length_take]
              omega
            refine ⟨b.take (want - rd), ?_, by omega, ?_⟩
            · have harith : len0 + want = (len0 + rd) + (b.take (want - rd)).length := by
                rw [hlentake]
                omega
              show (writeAt buf (len0 + rd) (b.take (want - rd))).take (len0 + want)
                = buf.take (len0 + rd) ++ b.take (want - rd)
              rw [harith, writeAt_take (by omega)]
            · intro n h
              have h2 : BReadRes.ok want = BReadRes.ok n := h
              injection h2 with h2
              rw [hlentake]
              omega

theorem refillRawLoop_congr (want : Nat) :
    ∀ (evs : List BReadEvent) (rd len0 : Nat) (buf buf2 : List Nat),
      buf.length = len0 + want → buf2.length = len0 + want →
      buf.take (len0 + rd) = buf2.take (len0 + rd) →
      refillRawLoop want evs rd len0 buf = refillRawLoop want evs rd len0 buf2 := by
  intro evs
  induction evs with
  | nil =>
    intro rd len0 buf buf2 h1 h2 hpre
    by_cases hw : want ≤ rd
    · rw [refillRawLoop_stop [] len0 buf hw, refillRawLoop_stop [] len0 buf2 hw, hpre]
    · rw [refillRawLoop_nil len0 buf hw, refillRawLoop_nil len0 buf2 hw, hpre]
  | cons e rest ih =>
    intro rd len0 buf buf2 h1 h2 hpre
    by_cases hw : want ≤ rd
    · rw [refillRawLoop_stop (e :: rest) len0 buf hw,
        refillRawLoop_stop (e :: rest) len0 buf2 hw, hpre]
    · match e with
      | BReadEvent.ioErr =>
        rw [refillRawLoop_err rest len0 buf hw, refillRawLoop_err rest len0 buf2 hw,
          hpre]
      | BReadEvent.dat b =>
        rw [refillRawLoop_dat b rest len0 buf hw, refillRawLoop_dat b rest len0 buf2 hw]
        by_cases hb : b = []
        · rw [if_pos hb, if_pos hb, hpre]
        · rw [if_neg hb, if_neg hb]
          by_cases hsp : b.length ≤ want - rd
          · rw [if_pos hsp, if_pos hsp]
            refine ih (rd + b.length) len0 _ _ ?_ ?_ ?_
            · rw [writeAt_length (by omega)]
              exact h1
            · rw [writeAt_length (by omega)]
              exact h2
            · have harith : len0 + (rd + b.length) = (len0 + rd) + b.length := by
                omega
              rw [harith, writeAt_take (by omega), writeAt_take (by omega), hpre]
          · rw [if_neg hsp, if_neg hsp]
            have hlentake : (b.take (want - rd)).length = want - rd := by
              rw [List.length_take]
              omega
            have harith : len0 + want = (len0 + rd) + (b.take (want - rd)).length := by
              rw [hlentake]
              omega
            rw [harith, writeAt_take (by omega), writeAt_take (by omega), hpre]

theorem refillReadRawLoop_stop {want rd : Nat} (evs : List PollEvent)
    (len0 : Nat) (buf : List Nat) (hw : want ≤ rd) :
    refillReadRawLoop want evs rd len0 buf
      = (PollReadRes.ok rd, buf.take (len0 + rd), evs) := by
  rw [refillReadRawLoop.eq_def]
  dsimp only
  rw [if_pos hw]

theorem refillReadRawLoop_nil {want rd : Nat} (len0 : Nat) (buf : List Nat)
    (hw : ¬want ≤ rd) :
    refillReadRawLoop want [] rd len0 buf
      = (PollReadRes.ok rd, buf.take (len0 + rd), []) := by
  rw [refillReadRawLoop.eq_def]
  dsimp only
  rw [if_neg hw]

theorem refillReadRawLoop_pend {want rd : Nat} (rest : List PollEvent)
    (len0 : Nat) (buf : List Nat) (hw : ¬want ≤ rd) :
    refillReadRawLoop want (PollEvent.pend :: rest) rd len0 buf
      = if rd = 0 then (PollReadRes.pending, buf.take (len0 + rd), rest)
        else (PollReadRes.ok rd, buf.take (len0 + rd), rest) := by
  rw [refillReadRawLoop.eq_def]
  dsimp only
  rw [if_neg hw]

theorem refillReadRawLoop_err {want rd : Nat} (rest : List PollEvent)
    (len0 : Nat) (buf : List Nat) (hw : ¬want ≤ rd) :
    refillReadRawLoop want (PollEvent.ioErr :: rest) rd len0 buf
      = (PollReadRes.ioErr, buf.take (len0 + rd), rest) := by
  rw [refillReadRawLoop.eq_def]
  dsimp only
  rw [if_neg hw]

theorem refillReadRawLoop_dat {want rd : Nat} (b : List Nat)
    (rest : List PollEvent) (len0 : Nat) (buf : List Nat) (hw : ¬want ≤ rd) :
    refillReadRawLoop want (PollEvent.dat b :: rest) rd len0 buf
      = if b = [] then (PollReadRes.ok rd, buf.take (len0 + rd), rest)
        else if b.length ≤ want - rd then
          refillReadRawLoop want rest (rd + b.length) len0 (writeAt buf (len0 + rd) b)
        else
          (PollReadRes.ok want,
            (writeAt buf (len0 + rd) (b.take (want - rd))).take (len0 + want),
            PollEvent.dat (b.drop (want - rd)) :: rest) := by
  rw [refillReadRawLoop.eq_def]
  dsimp only
  rw [if_neg hw]

theorem refillReadRawLoop_spec (want : Nat) :
    ∀ (evs : List PollEvent) (rd len0 : Nat) (buf : List Nat),
      rd ≤ want → buf.length = len0 + want →
      ∃ t, (refillReadRawLoop want evs rd len0 buf).2.1 = buf.take (len0 + rd) ++ t ∧
        rd + t.length ≤ want ∧
        (∀ n, (refillReadRawLoop want evs rd len0 buf).1 = PollReadRes.ok n →
          n = rd + t.length) ∧
        ((refillReadRawLoop want evs rd len0 buf).1 = PollReadRes.pending →
          rd = 0 ∧ t = []) := by
  intro evs
  induction evs with
  | nil =>
    intro rd len0 buf hrd hlen
    by_cases hw : want ≤ rd
    · rw [refillReadRawLoop_stop [] len0 buf hw]
      refine ⟨[], by rw [List.append_nil], by simpa using hrd, ?_, ?_⟩
      · intro n h
        have h2 : PollReadRes.ok rd = PollReadRes.ok n := h
        injection h2 with h2
        simpa using h2.symm
      · intro h
        have h2 : PollReadRes.ok rd = PollReadRes.pending := h
        cases h2
    · rw [refillReadRawLoop_nil len0 buf hw]
      refine ⟨[], by rw [List.append_nil], by simpa using hrd, ?_, ?_⟩
      · intro n h
        have h2 : PollReadRes.ok rd = PollReadRes.ok n := h
        injection h2 with h2
        simpa using h2.symm
      · intro h
        have h2 : PollReadRes.ok rd = PollReadRes.pending := h
        cases h2
  | cons e rest ih =>
    intro rd len0 buf hrd hlen
    by_cases hw : want ≤ rd
    · rw [refillReadRawLoop_stop (e :: rest) len0 buf hw]
      refine ⟨[], by rw [List.append_nil], by simpa using hrd, ?_, ?_⟩
      · intro n h
        have h2 : PollReadRes.ok rd = PollReadRes.ok n := h
        injection h2 with h2
        simpa using h2.symm
      · intro h
        have h2 : PollReadRes.ok rd = PollReadRes.pending := h
        cases h2
    · match e with
      | PollEvent.pend =>
        rw [refillReadRawLoop_pend rest len0 buf hw]
        by_cases hz : rd = 0
        · rw [if_pos hz]
          refine ⟨[], by rw [List.append_nil], by simpa using hrd, ?_, ?_⟩
          · intro n h
            have h2 : PollReadRes.pending = PollReadRes.ok n := h
            cases h2
          · intro _
            exact ⟨hz, rfl⟩
        · rw [if_neg hz]
          refine ⟨[], by rw [List.append_nil], by simpa using hrd, ?_, ?_⟩
          · intro n h
            have h2 : PollReadRes.ok rd = PollReadRes.ok n := h
            injection h2 with h2
            simpa using h2.symm
          · intro h
            have h2 : PollReadRes.ok rd = PollReadRes.pending := h
            cases h2
      | PollEvent.ioErr =>
        rw [refillReadRawLoop_err rest len0 buf hw]
        refine ⟨[], by rw [List.append_nil], by simpa using hrd, ?_, ?_⟩
        · intro n h
          have h2 : PollReadRes.ioErr = PollReadRes.ok n := h
          cases h2
        · intro h
          have h2 : PollReadRes.ioErr = PollReadRes.pending := h
          cases h2
      | PollEvent.dat b =>
        rw [refillReadRawLoop_dat b rest len0 buf hw]
        by_cases hb : b = []
        · rw [if_pos hb]
          refine ⟨[], by rw [List.append_nil], by simpa using hrd, ?_, ?_⟩
          · intro n h
            have h2 : PollReadRes.ok rd = PollReadRes.ok n := h
            injection h2 with h2
            simpa using h2.symm
          · intro h
            have h2 : PollReadRes.ok rd = PollReadRes.pending := h
            cases h2
        · rw [if_neg hb]
          by_cases hsp : b.length ≤ want - rd
          · rw [if_pos hsp]
            have hwlen : (writeAt buf (len0 + rd) b).length = len0 + want := by
              rw [writeAt_length (by omega)]
              exact hlen
            obtain ⟨t, ht1, ht2, ht3, ht4⟩ := ih (rd + b.length) len0
              (writeAt buf (len0 + rd) b) (by omega) hwlen
            refine ⟨b ++ t, ?_, ?_, ?_, ?_⟩
            · rw [ht1]
              have harith : len0 + (rd + b.length) = (len0 + rd) + b.length := by
                omega
              rw [harith, writeAt_take (by omega), List.append_assoc]
            · rw [List.length_append]
              omega
            · intro n h
              have := ht3 n h
              rw [List.length_append]
              omega
            · intro h
              obtain ⟨hz, -⟩ := ht4 h
              exact absurd (List.length_eq_zero.mp (by omega)) hb
          · rw [if_neg hsp]
            have hlentake : (b.take (want - rd)).length = want - rd := by
              rw [List.length_take]
              omega
            refine ⟨b.take (want - rd), ?_, by omega, ?_, ?_⟩
            · have harith : len0 + want = (len0 + rd) + (b.take (want - rd)).length := by
                rw [hlentake]
                omega
              show (writeAt buf (len0 + rd) (b.take (want - rd))).take (len0 + want)
                = buf.take (len0 + rd) ++ b.take (want - rd)
              rw [harith, writeAt_take (by omega)]
            · intro n h
              have h2 : PollReadRes.ok want = PollReadRes.ok n := h
              injection h2 with h2
              rw [hlentake]
              omega
            · intro h
              have h2 : PollReadRes.ok want = PollReadRes.pending := h
              cases h2

theorem refillReadRawLoop_congr (want : Nat) :
    ∀ (evs : List PollEvent) (rd len0 : Nat) (buf buf2 : List Nat),
      buf.length = len0 + want → buf2.length = len0 + want →
      buf.take (len0 + rd) = buf2.take (len0 + rd) →
      refillReadRawLoop want evs rd len0 buf
        = refillReadRawLoop want evs rd len0 buf2 := by
  intro evs
  induction evs with
  | nil =>
    intro rd len0 buf buf2 h1 h2 hpre
    by_cases hw : want ≤ rd
    · rw [refillReadRawLoop_stop [] len0 buf hw,
        refillReadRawLoop_stop [] len0 buf2 hw, hpre]
    · rw [refillReadRawLoop_nil len0 buf hw,
        refillReadRawLoop_nil len0 buf2 hw, hpre]
  | cons e rest ih =>
    intro rd len0 buf buf2 h1 h2 hpre
    by_cases hw : want ≤ rd
    · rw [refillReadRawLoop_stop (e :: rest) len0 buf hw,
        refillReadRawLoop_stop (e :: rest) len0 buf2 hw, hpre]
    · match e with
      | PollEvent.pend =>
        rw [refillReadRawLoop_pend rest len0 buf hw,
          refillReadRawLoop_pend rest len0 buf2 hw, hpre]
      | PollEvent.ioErr =>
        rw [refillReadRawLoop_err rest len0 buf hw,
          refillReadRawLoop_err rest len0 buf2 hw, hpre]
      | PollEvent.dat b =>
        rw [refillReadRawLoop_dat b rest len0 buf hw,
          refillReadRawLoop_dat b rest len0 buf2 hw]
        by_cases hb : b = []
        · rw [if_pos hb, if_pos hb, hpre]
        · rw [if_neg hb, if_neg hb]
          by_cases hsp : b.length ≤ want - rd
          · rw [if_pos hsp, if_pos hsp]
            refine ih (rd + b.length) len0 _ _ ?_ ?_ ?_
            · rw [writeAt_length (by omega)]
              exact h1
            · rw [writeAt_length (by omega)]
              exact h2
            · have harith : len0 + (rd + b.length) = (len0 + rd) + b.length := by
                omega
              rw [harith, writeAt_take (by omega), writeAt_take (by omega), hpre]
          · rw [if_neg hsp, if_neg hsp]
            have hlentake : (b.take (want - rd)).length = want - rd := by
              rw [List.length_take]
              omega
            have harith : len0 + want = (len0 + rd) + (b.take (want - rd)).length := by
              rw [hlentake]
              omega
            rw [harith, writeAt_take (by omega), writeAt_take (by omega), hpre]

/-- C10: although refill_buf and refill_read_buf grow the read buffer past
its initialized length with an unsafe set_len before reading, on every exit
path — success, end of input, read error, and Pending for the polling
variant — the buffer length is restored to exactly the previous length plus
the number of bytes actually read: the resulting buffer is the previous
buffer extended by the read bytes only, it does not depend on the contents
of the uninitialized tail, and the returned count equals the number of
appended bytes.  The polling variant returns Pending only when zero bytes
were read in that call (the buffer is restored unchanged); otherwise the
partial count is returned. -/
theorem refill_set_len_discipline (buf0 junk junk2 : List Nat)
    (evs : List BReadEvent) (pevs : List PollEvent)
    (hlen : junk2.length = junk.length) :
    (∃ t, (refillBufRaw buf0 junk evs).2.1 = buf0 ++ t ∧ t.length ≤ junk.length ∧
      (∀ n, (refillBufRaw buf0 junk evs).1 = BReadRes.ok n → n = t.length))
    ∧ refillBufRaw buf0 junk evs = refillBufRaw buf0 junk2 evs
    ∧ (∃ t, (refillReadRaw buf0 junk pevs).2.1 = buf0 ++ t ∧
        t.length ≤ junk.length ∧
        (∀ n, (refillReadRaw buf0 junk pevs).1 = PollReadRes.ok n → n = t.length) ∧
        ((refillReadRaw buf0 junk pevs).1 = PollReadRes.pending →
          (refillReadRaw buf0 junk pevs).2.1 = buf0))
    ∧ refillReadRaw buf0 junk pevs = refillReadRaw buf0 junk2 pevs := by
  have hlen1 : (buf0 ++ junk).length = buf0.length + junk.length := by
    rw [List.length_append]
  have hlen2 : (buf0 ++ junk2).length = buf0.length + junk.length := by
    rw [List.length_append, hlen]
  have hpre : ∀ j : List Nat, (buf0 ++ j).take (buf0.length + 0) = buf0 := by
    intro j
    rw [Nat.add_zero]
    exact List.take_left buf0 j
  constructor
  · obtain ⟨t, ht1, ht2, ht3⟩ := refillRawLoop_spec junk.length evs 0 buf0.length
      (buf0 ++ junk) (Nat.zero_le _) hlen1
    rw [hpre junk] at ht1
    exact ⟨t, ht1, by omega, fun n h => by have := ht3 n h; omega⟩
  refine ⟨?_, ?_, ?_⟩
  · show refillRawLoop junk.length evs 0 buf0.length (buf0 ++ junk)
      = refillRawLoop junk2.length evs 0 buf0.length (buf0 ++ junk2)
    rw [hlen]
    exact refillRawLoop_congr junk.length evs 0 buf0.length (buf0 ++ junk)
      (buf0 ++ junk2) hlen1 hlen2 (by rw [hpre junk, hpre junk2])
  · obtain ⟨t, ht1, ht2, ht3, ht4⟩ := refillReadRawLoop_spec junk.length pevs 0
      buf0.length (buf0 ++ junk) (Nat.zero_le _) hlen1
    rw [hpre junk] at ht1
    refine ⟨t, ht1, by omega, fun n h => by have := ht3 n h; omega, ?_⟩
    intro h
    obtain ⟨-, htz⟩ := ht4 h
    show (refillReadRawLoop junk.length pevs 0 buf0.length (buf0 ++ junk)).2.1 = buf0
    rw [ht1, htz, List.append_nil]
  · show refillReadRawLoop junk.length pevs 0 buf0.length (buf0 ++ junk)
      = refillReadRawLoop junk2.length pevs 0 buf0.length (buf0 ++ junk2)
    rw [hlen]
    exact refillReadRawLoop_congr junk.length pevs 0 buf0.length (buf0 ++ junk)
      (buf0 ++ junk2) hlen1 hlen2 (by rw [hpre junk, hpre junk2])

theorem refill_set_len_discipline_witness :
    ([9, 9, 9] : List Nat).length = ([7, 7, 7] : List Nat).length
      ∧ refillBufRaw [1, 2] [7, 7, 7] [BReadEvent.dat [5], BReadEvent.ioErr]
          = refillBufRaw [1, 2] [9, 9, 9] [BReadEvent.dat [5], BReadEvent.ioErr]
      ∧ refillReadRaw [1, 2] [7, 7, 7] [PollEvent.pend, PollEvent.dat [5, 6]]
          = refillReadRaw [1, 2] [9, 9, 9] [PollEvent.pend, PollEvent.dat [5, 6]] := by
  have h := refill_set_len_discipline [1, 2] [7, 7, 7] [9, 9, 9]
    [BReadEvent.dat [5], BReadEvent.ioErr] [PollEvent.pend, PollEvent.dat [5, 6]] rfl
  exact ⟨rfl, h.2.1, h.2.2.2⟩

/-! ## Compress pipeline (chunk_input, compress_cmd.rs) -/

/-- Mirror of dict.ChunkDescriptor as filled in by chunk_input. -/
structure ChunkDescriptor where
  checksum : List Nat
  source_size : Nat
  archive_offset : Nat
  archive_size : Nat
deriving DecidableEq, Repr

/-- The mutable state of chunk_input: the digest-to-unique-index map, the
total source size, the rebuild order (chunk_order), the running archive
offset, the next unique index, the descriptor list and the bytes written to
the temp file. -/
structure CompressState where
  uniqueChunks : List (List Nat × Nat)
  sourceSize : Nat
  chunkOrder : List Nat
  archiveOffset : Nat
  uniqueChunkIndex : Nat
  archiveChunks : List ChunkDescriptor
  tempFile : List Nat
deriving DecidableEq, Repr

/-- HashMap lookup, modelled on the insertion-ordered association list. -/
def lookupIdx (h : List Nat) : List (List Nat × Nat) → Option Nat
  | [] => none
  | (k, i) :: rest => if k = h then some i else lookupIdx h rest

/-- The bytes chunk_input stores for a unique chunk: the compressed bytes,
unless they are at least as long as the chunk itself, in which case the
chunk is stored uncompressed (use_uncompressed_chunk). -/
def useData (compress : List Nat → List Nat) (c : List Nat) : List Nat :=
  if c.length ≤ (compress c).length then c else compress c

/-- Embeds one chunk of the source through the hash, dedup, compress and
write stages of chunk_input (compress_cmd.rs).  The source hasher and
source_size are updated for every chunk; a digest already in the map only
records its existing unique index in chunk_order; a new digest is assigned
the next unused index, its chunk is compressed, a descriptor recording the
pre-write archive_offset and the stored length is appended, and the stored
bytes are written to the temp file. -/
def chunkStep (hash compress : List Nat → List Nat) (st : CompressState)
    (c : List Nat) : CompressState :=
  match lookupIdx (hash c) st.uniqueChunks with
  | some i =>
    { st with
      sourceSize := st.sourceSize + c.length
      chunkOrder := st.chunkOrder ++ [i] }
  | none =>
    { uniqueChunks := st.uniqueChunks ++ [(hash c, st.uniqueChunkIndex)]
      sourceSize := st.sourceSize + c.length
      chunkOrder := st.chunkOrder ++ [st.uniqueChunkIndex]
      archiveOffset := st.archiveOffset + (useData compress c).length
      uniqueChunkIndex := st.uniqueChunkIndex + 1
      archiveChunks := st.archiveChunks ++
        [{ checksum := hash c
           source_size := c.length
           archive_offset := st.archiveOffset
           archive_size := (useData compress c).length }]
      tempFile := st.tempFile ++ useData compress c }

/-- The initial state of chunk_input. -/
def initState : CompressState :=
  { uniqueChunks := []
    sourceSize := 0
    chunkOrder := []
    archiveOffset := 0
    uniqueChunkIndex := 0
    archiveChunks := []
    tempFile := [] }

/-- Embeds chunk_input (compress_cmd.rs) applied to the chunks the chunker
emits, in source order: the buffered pipeline stages preserve source order,
and the dedup critical section and the write loop are serial, so the run is
a left fold of chunkStep. -/
def chunkInput (hash compress : List Nat → List Nat)
    (chunks : List (List Nat)) : CompressState :=
  chunks.foldl (chunkStep hash compress) initState

/-- The digest map chunk_input builds: descriptor i of the descriptor list is
keyed by its checksum with value i. -/
def mapOfDescs : List ChunkDescriptor → Nat → List (List Nat × Nat)
  | [], _ => []
  | d :: ds, k => (d.checksum, k) :: mapOfDescs ds (k + 1)

/-- Contiguity of descriptors starting at a given offset: each descriptor
starts where the previous one ended. -/
def contiguousFrom : Nat → List ChunkDescriptor → Bool
  | _, [] => true
  | off, d :: ds => d.archive_offset == off && contiguousFrom (off + d.archive_size) ds

/-- A default descriptor, for out-of-range indexing only. -/
def dfltDesc : ChunkDescriptor :=
  { checksum := [], source_size := 0, archive_offset := 0, archive_size := 0 }

/-- Sum of descriptor source_size over the rebuild order. -/
def orderSum (st : CompressState) : Nat :=
  (st.chunkOrder.map (fun i => (st.archiveChunks.getD i dfltDesc).source_size)).sum

theorem getD_mem {α : Type} (d : α) :
    ∀ (l : List α) (n : Nat), n < l.length → l.getD n d ∈ l
  | a :: l, 0, _ => List.mem_cons_self a l
  | a :: l, n + 1, h =>
    List.mem_cons_of_mem a (getD_mem d l n (by simpa using h))

theorem mapOfDescs_append (d : ChunkDescriptor) :
    ∀ (ds : List ChunkDescriptor) (k : Nat),
      mapOfDescs (ds ++ [d]) k = mapOfDescs ds k ++ [(d.checksum, k + ds.length)] := by
  intro ds
  induction ds with
  | nil => intro k; simp [mapOfDescs]
  | cons e ds ih =>
    intro k
    show (e.checksum, k) :: mapOfDescs (ds ++ [d]) (k + 1)
        = (e.checksum, k) :: mapOfDescs ds (k + 1)
            ++ [(d.checksum, k + (e :: ds).length)]
    rw [ih (k + 1), List.length_cons]
    have harith : k + 1 + ds.length = k + (ds.length + 1) := by omega
    rw [harith, List.cons_append]

theorem lookupIdx_mapOfDescs {h : List Nat} :
    ∀ (ds : List ChunkDescriptor) (k i : Nat),
      lookupIdx h (mapOfDescs ds k) = some i →
      k ≤ i ∧ i - k < ds.length ∧ (ds.getD (i - k) dfltDesc).checksum = h := by
  intro ds
  induction ds with
  | nil =>
    intro k i hl
    simp [mapOfDescs, lookupIdx] at hl
  | cons d ds ih =>
    intro k i hl
    simp only [mapOfDescs, lookupIdx] at hl
    by_cases hd : d.checksum = h
    · rw [if_pos hd] at hl
      injection hl with hl
      subst hl
      refine ⟨Nat.le_refl _, by simp, ?_⟩
      simp only [Nat.sub_self]
      exact hd
    · rw [if_neg hd] at hl
      obtain ⟨h1, h2, h3⟩ := ih (k + 1) i hl
      refine ⟨by omega, by simp; omega, ?_⟩
      have hik : i - k = (i - (k + 1)) + 1 := by omega
      rw [hik]
      exact h3

theorem contiguousFrom_append (d : ChunkDescriptor) :
    ∀ (ds : List ChunkDescriptor) (k : Nat),
      contiguousFrom k (ds ++ [d]) = true ↔
        (contiguousFrom k ds = true ∧
          d.archive_offset = k + (ds.map ChunkDescriptor.archive_size).sum) := by
  intro ds
  induction ds with
  | nil =>
    intro k
    simp [contiguousFrom]
  | cons e ds ih =>
    intro k
    show (e.archive_offset == k && contiguousFrom (k + e.archive_size) (ds ++ [d]))
        = true ↔ _
    rw [Bool.and_eq_true, beq_iff_eq, ih (k + e.archive_size)]
    show _ ↔ ((e.archive_offset == k && contiguousFrom (k + e.archive_size) ds)
        = true ∧ _)
    rw [Bool.and_eq_true, beq_iff_eq]
    simp only [List.map_cons, List.sum_cons]
    constructor
    · rintro ⟨h1, h2, h3⟩
      exact ⟨⟨h1, h2⟩, by omega⟩
    · rintro ⟨⟨h1, h2⟩, h3⟩
      exact ⟨h1, h2, by omega⟩

/-- The inductive invariant of the chunk_input state after processing the
source chunk list cs. -/
structure Inv (hash compress : List Nat → List Nat) (cs : List (List Nat))
    (st : CompressState) : Prop where
  idx_eq : st.uniqueChunkIndex = st.archiveChunks.length
  map_eq : st.uniqueChunks = mapOfDescs st.archiveChunks 0
  order_lt : ∀ i ∈ st.chunkOrder, i < st.archiveChunks.length
  order_len : st.chunkOrder.length = cs.length
  size_eq : st.sourceSize = (cs.map List.length).sum
  off_file : st.archiveOffset = st.tempFile.length
  off_sum : st.archiveOffset = (st.archiveChunks.map ChunkDescriptor.archive_size).sum
  contig : contiguousFrom 0 st.archiveChunks = true
  bounds : ∀ d ∈ st.archiveChunks, d.archive_offset + d.archive_size ≤ st.tempFile.length
  descs : ∀ d ∈ st.archiveChunks, ∃ c, c ∈ cs ∧ d.checksum = hash c ∧
      d.source_size = c.length ∧ d.archive_size = (useData compress c).length ∧
      (st.tempFile.drop d.archive_offset).take d.archive_size = useData compress c

theorem chunkStep_dup {hash compress : List Nat → List Nat} {st : CompressState}
    {c : List Nat} {i : Nat}
    (hl : lookupIdx (hash c) st.uniqueChunks = some i) :
    chunkStep hash compress st c =
      { st with
        sourceSize := st.sourceSize + c.length
        chunkOrder := st.chunkOrder ++ [i] } := by
  simp only [chunkStep, hl]

theorem chunkStep_new {hash compress : List Nat → List Nat} {st : CompressState}
    {c : List Nat} (hl : lookupIdx (hash c) st.uniqueChunks = none) :
    chunkStep hash compress st c =
      { uniqueChunks := st.uniqueChunks ++ [(hash c, st.uniqueChunkIndex)]
        sourceSize := st.sourceSize + c.length
        chunkOrder := st.chunkOrder ++ [st.uniqueChunkIndex]
        archiveOffset := st.archiveOffset + (useData compress c).length
        uniqueChunkIndex := st.uniqueChunkIndex + 1
        archiveChunks := st.archiveChunks ++
          [{ checksum := hash c
             source_size := c.length
             archive_offset := st.archiveOffset
             archive_size := (useData compress c).length }]
        tempFile := st.tempFile ++ useData compress c } := by
  simp only [chunkStep, hl]

theorem inv_step {hash compress : List Nat → List Nat} {cs : List (List Nat)}
    {st : CompressState} (c : List Nat) (h : Inv hash compress cs st) :
    Inv hash compress (cs ++ [c]) (chunkStep hash compress st c) := by
  cases hl : lookupIdx (hash c) st.uniqueChunks with
  | some i =>
    rw [chunkStep_dup hl]
    have hi : i < st.archiveChunks.length := by
      rw [h.map_eq] at hl
      obtain ⟨-, h2, -⟩ := lookupIdx_mapOfDescs st.archiveChunks 0 i hl
      omega
    refine ⟨h.idx_eq, h.map_eq, ?_, ?_, ?_, h.off_file, h.off_sum, h.contig,
      h.bounds, ?_⟩
    · intro j hj
      rcases List.mem_append.mp hj with hj | hj
      · exact h.order_lt j hj
      · rw [List.mem_singleton.mp hj]
        exact hi
    · rw [List.length_append, h.order_len, List.length_append]
      rfl
    · rw [h.size_eq, List.map_append, List.sum_append]
      simp
    · intro d hd
      obtain ⟨c0, hc0, hrest⟩ := h.descs d hd
      exact ⟨c0, List.mem_append_left _ hc0, hrest⟩
  | none =>
    rw [chunkStep_new hl]
    have hofflen : st.archiveOffset = st.tempFile.length := h.off_file
    refine ⟨?_, ?_, ?_, ?_, ?_, ?_, ?_, ?_, ?_, ?_⟩
    · rw [List.length_append, h.idx_eq]
      rfl
    · rw [mapOfDescs_append, h.map_eq, h.idx_eq]
      simp
    · intro j hj
      rw [List.length_append]
      rcases List.mem_append.mp hj with hj | hj
      · have := h.order_lt j hj
        simp
        omega
      · rw [List.mem_singleton.mp hj, h.idx_eq]
        simp
    · rw [List.length_append, h.order_len, List.length_append]
      rfl
    · rw [h.size_eq, List.map_append, List.sum_append]
      simp
    · rw [List.length_append, hofflen]
    · rw [List.map_append, List.sum_append, h.off_sum]
      simp
    · rw [contiguousFrom_append]
      refine ⟨h.contig, ?_⟩
      show st.archiveOffset = 0 + (st.archiveChunks.map ChunkDescriptor.archive_size).sum
      rw [← h.off_sum]
      omega
    · intro d hd
      rw [List.length_append]
      rcases List.mem_append.mp hd with hd | hd
      · have := h.bounds d hd
        omega
      · rw [List.mem_singleton.mp hd]
        show st.archiveOffset + (useData compress c).length
          ≤ st.tempFile.length + (useData compress c).length
        omega
    · intro d hd
      rcases List.mem_append.mp hd with hd | hd
      · obtain ⟨c0, hc0, hck, hsz, har, hseg⟩ := h.descs d hd
        refine ⟨c0, List.mem_append_left _ hc0, hck, hsz, har, ?_⟩
        have hb := h.bounds d hd
        rw [List.drop_append_of_le_length (by omega),
          List.take_append_of_le_length (by rw [List.length_drop]; omega)]
        exact hseg
      · rw [List.mem_singleton.mp hd]
        refine ⟨c, List.mem_append_right _ (List.mem_singleton.mpr rfl), rfl, rfl,
          rfl, ?_⟩
        show ((st.tempFile ++ useData compress c).drop st.archiveOffset).take
            (useData compress c).length = useData compress c
        rw [hofflen, List.drop_left, List.take_length]

theorem inv_fold (hash compress : List Nat → List Nat) :
    ∀ (chunks cs : List (List Nat)) (st : CompressState),
      Inv hash compress cs st →
      Inv hash compress (cs ++ chunks)
        (chunks.foldl (chunkStep hash compress) st) := by
  intro chunks
  induction chunks with
  | nil =>
    intro cs st h
    rw [List.append_nil]
    exact h
  | cons c rest ih =>
    intro cs st h
    have hstep := inv_step c h
    have := ih (cs ++ [c]) (chunkStep hash compress st c) hstep
    rw [List.append_assoc] at this
    exact this

theorem inv_init (hash compress : List Nat → List Nat) :
    Inv hash compress [] initState := by
  refine ⟨rfl, rfl, ?_, rfl, rfl, rfl, rfl, rfl, ?_, ?_⟩
  · intro j hj
    cases hj
  · intro d hd
    cases hd
  · intro d hd
    cases hd

theorem inv_chunkInput (hash compress : List Nat → List Nat)
    (chunks : List (List Nat)) :
    Inv hash compress chunks (chunkInput hash compress chunks) := by
  have := inv_fold hash compress chunks [] initState (inv_init hash compress)
  rw [List.nil_append] at this
  exact this

theorem orderSum_step {hash compress : List Nat → List Nat} {cs : List (List Nat)}
    {st : CompressState} (c : List Nat)
    (hinj : ∀ a b : List Nat, hash a = hash b → a = b)
    (h : Inv hash compress cs st) :
    orderSum (chunkStep hash compress st c) = orderSum st + c.length := by
  cases hl : lookupIdx (hash c) st.uniqueChunks with
  | some i =>
    rw [chunkStep_dup hl]
    show ((st.chunkOrder ++ [i]).map
        (fun j => (st.archiveChunks.getD j dfltDesc).source_size)).sum = _
    rw [List.map_append, List.sum_append]
    simp only [List.map_cons, List.map_nil, List.sum_cons, List.sum_nil]
    have hd : (st.archiveChunks.getD i dfltDesc).source_size = c.length := by
      rw [h.map_eq] at hl
      obtain ⟨-, hlt, hck⟩ := lookupIdx_mapOfDescs st.archiveChunks 0 i hl
      rw [Nat.sub_zero] at hlt hck
      have hmem : st.archiveChunks.getD i dfltDesc ∈ st.archiveChunks :=
        getD_mem dfltDesc st.archiveChunks i hlt
      obtain ⟨c0, -, hck0, hsz0, -, -⟩ := h.descs _ hmem
      have hc0 : c0 = c := hinj c0 c (by rw [← hck0, hck])
      rw [hsz0, hc0]
    rw [hd]
    rfl
  | none =>
    rw [chunkStep_new hl]
    show ((st.chunkOrder ++ [st.uniqueChunkIndex]).map (fun j =>
        ((st.archiveChunks ++
          [({ checksum := hash c, source_size := c.length,
              archive_offset := st.archiveOffset,
              archive_size := (useData compress c).length } : ChunkDescriptor)]).getD j
            dfltDesc).source_size)).sum = orderSum st + c.length
    rw [List.map_append, List.sum_append]
    have hmap : st.chunkOrder.map (fun j =>
        ((st.archiveChunks ++
          [({ checksum := hash c, source_size := c.length,
              archive_offset := st.archiveOffset,
              archive_size := (useData compress c).length } : ChunkDescriptor)]).getD j
            dfltDesc).source_size)
        = st.chunkOrder.map
            (fun j => (st.archiveChunks.getD j dfltDesc).source_size) := by
      refine List.map_eq_map_iff.mpr ?_
      intro j hj
      rw [List.getD_append _ _ _ _ (h.order_lt j hj)]
    rw [hmap]
    simp only [List.map_cons, List.map_nil, List.sum_cons, List.sum_nil]
    rw [h.idx_eq, List.getD_append_right _ _ _ _ (Nat.le_refl _), Nat.sub_self]
    rfl

theorem orderSum_fold {hash compress : List Nat → List Nat}
    (hinj : ∀ a b : List Nat, hash a = hash b → a = b) :
    ∀ (chunks cs : List (List Nat)) (st : CompressState),
      Inv hash compress cs st →
      orderSum (chunks.foldl (chunkStep hash compress) st)
        = orderSum st + (chunks.map List.length).sum := by
  intro chunks
  induction chunks with
  | nil =>
    intro cs st _
    simp
  | cons c rest ih =>
    intro cs st h
    show orderSum (rest.foldl (chunkStep hash compress)
      (chunkStep hash compress st c)) = _
    rw [ih (cs ++ [c]) (chunkStep hash compress st c) (inv_step c h),
      orderSum_step c hinj h]
    simp only [List.map_cons, List.sum_cons]
    omega

/-- C2: for every unique chunk processed by chunk_input, if the compressed
length is at least the uncompressed length the uncompressed bytes are written
to the payload and the descriptor has archive_size equal to source_size, else
the compressed bytes are written and archive_size is less than source_size;
hence every descriptor of a run satisfies archive_size at most source_size,
with equality exactly when the chunk is stored uncompressed. -/
theorem chunk_input_adaptive_fallback (hash compress : List Nat → List Nat)
    (chunks : List (List Nat)) :
    (∀ (st : CompressState) (c : List Nat),
      lookupIdx (hash c) st.uniqueChunks = none →
        (c.length ≤ (compress c).length →
          (chunkStep hash compress st c).tempFile = st.tempFile ++ c ∧
          (chunkStep hash compress st c).archiveChunks = st.archiveChunks ++
            [{ checksum := hash c, source_size := c.length,
               archive_offset := st.archiveOffset, archive_size := c.length }])
        ∧ ((compress c).length < c.length →
          (chunkStep hash compress st c).tempFile = st.tempFile ++ compress c ∧
          (chunkStep hash compress st c).archiveChunks = st.archiveChunks ++
            [{ checksum := hash c, source_size := c.length,
               archive_offset := st.archiveOffset,
               archive_size := (compress c).length }]))
    ∧ (∀ d ∈ (chunkInput hash compress chunks).archiveChunks, ∃ c, c ∈ chunks ∧
        d.source_size = c.length ∧ d.archive_size = (useData compress c).length ∧
        d.archive_size ≤ d.source_size ∧
        (d.archive_size = d.source_size ↔ c.length ≤ (compress c).length)) := by
  constructor
  · intro st c hl
    constructor
    · intro hle
      rw [chunkStep_new hl]
      unfold useData
      rw [if_pos hle]
      exact ⟨rfl, rfl⟩
    · intro hlt
      rw [chunkStep_new hl]
      unfold useData
      rw [if_neg (by omega)]
      exact ⟨rfl, rfl⟩
  · intro d hd
    obtain ⟨c0, hc0, -, hsz, har, -⟩ :=
      (inv_chunkInput hash compress chunks).descs d hd
    refine ⟨c0, hc0, hsz, har, ?_, ?_⟩
    · rw [har, hsz]
      unfold useData
      by_cases hle : c0.length ≤ (compress c0).length
      · rw [if_pos hle]
      · rw [if_neg hle]
        omega
    · rw [har, hsz]
      unfold useData
      by_cases hle : c0.length ≤ (compress c0).length
      · rw [if_pos hle]
        simp [hle]
      · rw [if_neg hle]
        constructor
        · intro heq
          omega
        · intro hc
          exact absurd hc hle

theorem chunk_input_adaptive_fallback_witness :
    lookupIdx (id [1, 2]) initState.uniqueChunks = none ∧
      (chunkStep id (fun _ => [0]) initState [1, 2]).tempFile = [0] := by
  have h := (chunk_input_adaptive_fallback id (fun _ => [0]) []).1 initState
    [1, 2] rfl
  refine ⟨rfl, ?_⟩
  have h2 := (h.2 (by decide)).1
  simpa using h2

/-- C3: the dedup stage of chunk_input builds chunk_order so that one index
is appended per source chunk in source order (its length equals the total
chunk count), a chunk whose digest was seen before reuses the existing unique
index and changes nothing else but the source size, a chunk with a new digest
is assigned the next unused index — the digest map pairs descriptor i with
index i, indices appearing in order of first occurrence — and every index in
chunk_order is strictly below the number of chunk descriptors. -/
theorem chunk_input_rebuild_order (hash compress : List Nat → List Nat)
    (chunks : List (List Nat)) :
    (chunkInput hash compress chunks).chunkOrder.length = chunks.length
      ∧ (∀ i ∈ (chunkInput hash compress chunks).chunkOrder,
          i < (chunkInput hash compress chunks).archiveChunks.length)
      ∧ (chunkInput hash compress chunks).uniqueChunks
          = mapOfDescs (chunkInput hash compress chunks).archiveChunks 0
      ∧ (chunkInput hash compress chunks).uniqueChunkIndex
          = (chunkInput hash compress chunks).archiveChunks.length
      ∧ (∀ (st : CompressState) (c : List Nat) (i : Nat),
          lookupIdx (hash c) st.uniqueChunks = some i →
          chunkStep hash compress st c =
            { st with
              sourceSize := st.sourceSize + c.length
              chunkOrder := st.chunkOrder ++ [i] })
      ∧ (∀ (st : CompressState) (c : List Nat),
          lookupIdx (hash c) st.uniqueChunks = none →
          (chunkStep hash compress st c).chunkOrder
              = st.chunkOrder ++ [st.uniqueChunkIndex]
            ∧ (chunkStep hash compress st c).uniqueChunkIndex
              = st.uniqueChunkIndex + 1
            ∧ (chunkStep hash compress st c).archiveChunks.length
              = st.archiveChunks.length + 1) := by
  have hinv := inv_chunkInput hash compress chunks
  refine ⟨hinv.order_len, hinv.order_lt, hinv.map_eq, hinv.idx_eq, ?_, ?_⟩
  · intro st c i hl
    exact chunkStep_dup hl
  · intro st c hl
    rw [chunkStep_new hl]
    refine ⟨rfl, rfl, ?_⟩
    rw [List.length_append]
    rfl

theorem chunk_input_rebuild_order_witness :
    (chunkInput id id [[1], [2], [1]]).chunkOrder.length = 3 ∧
      (chunkInput id id [[1], [2], [1]]).chunkOrder = [0, 1, 0] :=
  ⟨(chunk_input_rebuild_order id id [[1], [2], [1]]).1, by decide⟩

/-- C4: for every archive produced by chunk_input with a collision-free chunk
digest, the sum of descriptor source_size over the entries of the rebuild
order equals the recorded source size, and both equal the total number of
bytes emitted by the chunker. -/
theorem chunk_input_source_size_sum (hash compress : List Nat → List Nat)
    (chunks : List (List Nat))
    (hinj : ∀ a b : List Nat, hash a = hash b → a = b) :
    orderSum (chunkInput hash compress chunks)
        = (chunkInput hash compress chunks).sourceSize
      ∧ (chunkInput hash compress chunks).sourceSize
        = (chunks.map List.length).sum := by
  have hinv := inv_chunkInput hash compress chunks
  have hfold := orderSum_fold hinj chunks [] initState (inv_init hash compress)
  have hzero : orderSum initState = 0 := rfl
  rw [hzero, Nat.zero_add] at hfold
  exact ⟨by rw [hinv.size_eq]; exact hfold, hinv.size_eq⟩

theorem chunk_input_source_size_sum_witness :
    (∀ a b : List Nat, id a = id b → a = b) ∧
      orderSum (chunkInput id (fun c => c.dropLast) [[1, 2, 3], [4], [1, 2, 3]])
        = (chunkInput id (fun c => c.dropLast)
            [[1, 2, 3], [4], [1, 2, 3]]).sourceSize := by
  have hinj : ∀ a b : List Nat, id a = id b → a = b := fun a b h => h
  exact ⟨hinj, (chunk_input_source_size_sum id (fun c => c.dropLast)
    [[1, 2, 3], [4], [1, 2, 3]] hinj).1⟩

/-- C5: the descriptors produced by chunk_input describe a contiguous
payload: the first descriptor starts at archive offset 0 and each descriptor
starts where the previous one ended; the temp file ends exactly at the
running archive offset; and the bytes at each descriptor offset are exactly
the stored (compressed or uncompressed) bytes of its chunk, descriptors
being recorded in the order unique indices were assigned. -/
theorem chunk_input_payload_contiguous (hash compress : List Nat → List Nat)
    (chunks : List (List Nat)) :
    contiguousFrom 0 (chunkInput hash compress chunks).archiveChunks = true
      ∧ (chunkInput hash compress chunks).tempFile.length
          = (chunkInput hash compress chunks).archiveOffset
      ∧ (∀ (d0 : ChunkDescriptor) (ds0 : List ChunkDescriptor),
          (chunkInput hash compress chunks).archiveChunks = d0 :: ds0 →
          d0.archive_offset = 0)
      ∧ ∀ d ∈ (chunkInput hash compress chunks).archiveChunks, ∃ c, c ∈ chunks ∧
          d.checksum = hash c ∧
          (((chunkInput hash compress chunks).tempFile.drop d.archive_offset).take
            d.archive_size) = useData compress c := by
  have hinv := inv_chunkInput hash compress chunks
  refine ⟨hinv.contig, hinv.off_file.symm, ?_, ?_⟩
  · intro d0 ds0 hds
    have hc := hinv.contig
    rw [hds] at hc
    simp only [contiguousFrom, Bool.and_eq_true, beq_iff_eq] at hc
    exact hc.1
  · intro d hd
    obtain ⟨c, hc, hck, -, -, hseg⟩ := hinv.descs d hd
    exact ⟨c, hc, hck, hseg⟩

theorem chunk_input_payload_contiguous_witness :
    contiguousFrom 0
      (chunkInput id (fun c => c.dropLast)
        [[1, 2, 3], [4], [1, 2, 3], [5]]).archiveChunks = true :=
  (chunk_input_payload_contiguous id (fun c => c.dropLast)
    [[1, 2, 3], [4], [1, 2, 3], [5]]).1

/-! ## Seed scanning (chunk_seed / unpack_input, unpack_cmd.rs) -/

/-- Embeds the per-chunk callback of chunk_seed as instantiated by
unpack_input (unpack_cmd.rs): the digest of the seed chunk truncated to
hash_length is looked up in the still-missing set; a hit scatter-writes the
chunk bytes to every source offset recorded for that hash and removes the
hash from the set; a miss changes nothing.  The missing set is the list of
missing hashes, the output file is the log of (offset, bytes) writes, and
chunk_source_offsets of the archive reader (not part of the source snapshot)
is an abstract offsets function. -/
def seedChunkStep (hashLen : Nat) (hash offsets : List Nat → List Nat)
    (acc : List (List Nat) × List (Nat × List Nat)) (c : List Nat) :
    List (List Nat) × List (Nat × List Nat) :=
  if (hash c).take hashLen ∈ acc.1 then
    (acc.1.erase ((hash c).take hashLen),
      acc.2 ++ (offsets ((hash c).take hashLen)).map (fun o => (o, c)))
  else acc

/-- Embeds chunk_seed over one seed input: every chunk the chunker emits
from the seed runs through seedChunkStep. -/
def chunkSeed (hashLen : Nat) (hash offsets : List Nat → List Nat)
    (seedChunks : List (List Nat)) (hset : List (List Nat))
    (log : List (Nat × List Nat)) :
    List (List Nat) × List (Nat × List Nat) :=
  seedChunks.foldl (seedChunkStep hashLen hash offsets) (hset, log)

/-- Embeds the seed-file loop of unpack_input: each seed is scanned only when
chunks are still missing.  Also returns the list of seeds actually scanned. -/
def unpackSeeds (hashLen : Nat) (hash offsets : List Nat → List Nat) :
    List (List (List Nat)) → List (List Nat) → List (Nat × List Nat) →
    List (List Nat) × List (Nat × List Nat) × List (List (List Nat))
  | [], hset, log => (hset, log, [])
  | seed :: rest, hset, log =>
    if hset.length > 0 then
      let r := chunkSeed hashLen hash offsets seed hset log
      let r2 := unpackSeeds hashLen hash offsets rest r.1 r.2
      (r2.1, r2.2.1, seed :: r2.2.2)
    else unpackSeeds hashLen hash offsets rest hset log

/-- C7: during seed scanning, for every seed chunk whose truncated digest is
in the still-missing set the chunk bytes are written to every source offset
recorded for that hash and the hash is then removed from the set (the set
being duplicate-free); a chunk whose digest is not in the missing set causes
no write and no change to the set; and a seed is not scanned at all when the
missing set is already empty, so scanning stops early. -/
theorem seed_scan_behavior (hashLen : Nat) (hash offsets : List Nat → List Nat) :
    (∀ (hset : List (List Nat)) (log : List (Nat × List Nat)) (c : List Nat),
      ((hash c).take hashLen ∈ hset →
        seedChunkStep hashLen hash offsets (hset, log) c
          = (hset.erase ((hash c).take hashLen),
             log ++ (offsets ((hash c).take hashLen)).map (fun o => (o, c))))
      ∧ ((hash c).take hashLen ∉ hset →
        seedChunkStep hashLen hash offsets (hset, log) c = (hset, log))
      ∧ (hset.Nodup → (hash c).take hashLen ∈ hset →
        (hash c).take hashLen ∉ (seedChunkStep hashLen hash offsets (hset, log) c).1))
    ∧ (∀ (seeds : List (List (List Nat))) (log : List (Nat × List Nat)),
        unpackSeeds hashLen hash offsets seeds [] log = ([], log, [])) := by
  constructor
  · intro hset log c
    refine ⟨?_, ?_, ?_⟩
    · intro hmem
      simp only [seedChunkStep]
      rw [if_pos hmem]
    · intro hmem
      simp only [seedChunkStep]
      rw [if_neg hmem]
    · intro hnd hmem
      simp only [seedChunkStep]
      rw [if_pos hmem]
      exact hnd.not_mem_erase
  · intro seeds
    induction seeds with
    | nil =>
      intro log
      rfl
    | cons seed rest ih =>
      intro log
      simp only [unpackSeeds]
      rw [if_neg (by simp)]
      exact ih log

theorem seed_scan_behavior_witness :
    ([1, 2] : List Nat) ∈ ([[1, 2]] : List (List Nat)) ∧
      seedChunkStep 2 id (fun _ => [0, 5]) ([[1, 2]], []) [1, 2, 3]
        = ([], [(0, [1, 2, 3]), (5, [1, 2, 3])]) := by
  have h := ((seed_scan_behavior 2 id (fun _ => [0, 5])).1 [[1, 2]] [] [1, 2, 3]).1
  have hm : (id [1, 2, 3]).take 2 ∈ ([[1, 2]] : List (List Nat)) := by decide
  refine ⟨by decide, ?_⟩
  rw [h hm]
  rfl

/-! ## Reconstructor output initialization (unpack_input, unpack_cmd.rs) -/

/-- An opened output file: its current size and its stat mode. -/
structure OutFile where
  size : Nat
  mode : Nat
deriving DecidableEq, Repr

/-- Result of output initialization. -/
inductive InitResult where
  | failed : InitResult
  | ready : OutFile → InitResult
deriving DecidableEq, Repr

/-- Embeds the output-initialization step of unpack_input (unpack_cmd.rs),
performed before any chunk is written: a block device (st_mode masked with
0x6000 equal to 0x6000) is never resized and reconstruction fails by panic
when its size differs from source_total_size; any other output is resized
with set_len to exactly source_total_size. -/
def initOutput (f : OutFile) (sourceTotalSize : Nat) : InitResult :=
  if f.mode &&& 0x6000 = 0x6000 then
    if f.size ≠ sourceTotalSize then InitResult.failed
    else InitResult.ready f
  else InitResult.ready { f with size := sourceTotalSize }

/-- C8: on output initialization the reconstructor distinguishes the output
kind: a block device is never resized — reconstruction fails whenever the
device size differs from the archive source_total_size, and the file is left
unchanged when the sizes agree; a regular file is resized to exactly
source_total_size before any chunk is written. -/
theorem unpack_output_init (f : OutFile) (total : Nat) :
    (f.mode &&& 0x6000 = 0x6000 →
      (f.size ≠ total → initOutput f total = InitResult.failed)
      ∧ (f.size = total → initOutput f total = InitResult.ready f))
    ∧ (f.mode &&& 0x6000 ≠ 0x6000 →
      initOutput f total = InitResult.ready { f with size := total }) := by
  constructor
  · intro hb
    constructor
    · intro hne
      unfold initOutput
      rw [if_pos hb, if_pos hne]
    · intro heq
      unfold initOutput
      rw [if_pos hb, if_neg (fun h => h heq)]
  · intro hb
    unfold initOutput
    rw [if_neg hb]

theorem unpack_output_init_witness :
    ((0x6000 : Nat) &&& 0x6000 = 0x6000)
      ∧ initOutput { size := 5, mode := 0x6000 } 7 = InitResult.failed
      ∧ initOutput { size := 5, mode := 0x8000 } 7
          = InitResult.ready { size := 7, mode := 0x8000 } := by
  refine ⟨by decide, ?_, ?_⟩
  · exact ((unpack_output_init { size := 5, mode := 0x6000 } 7).1
      (by decide)).1 (by decide)
  · exact (unpack_output_init { size := 5, mode := 0x8000 } 7).2 (by decide)

/-! ## Error handling (error.rs and the expect sites of chunk_input) -/

/-- Mirror of the Error enum (error.rs); payloads other than the description
are elided.  There is no WorkerJoin and no Compression variant: task join
failures are the JoinError kind. -/
inductive BitarError where
  | notAnArchive : String → BitarError
  | checksumMismatch : String → BitarError
  | ioError : String → BitarError
  | dictionaryDecode : String → BitarError
  | dictionaryEncode : String → BitarError
  | hyper : String → BitarError
  | http : String → BitarError
  | invalidUri : String → BitarError
  | joinError : String → BitarError
  | other : String → BitarError
  | wrapped : String → BitarError
deriving DecidableEq, Repr

/-- Outcome of unwrapping one worker or stage result inside chunk_input: the
stage either yields the value, surfaces an Error to the caller, or aborts
the process (Rust expect panic). -/
inductive StageOutcome (α : Type) where
  | ok : α → StageOutcome α
  | surfaced : BitarError → StageOutcome α
  | aborted : String → StageOutcome α
deriving DecidableEq, Repr

def StageOutcome.isSurfaced {α : Type} : StageOutcome α → Bool
  | StageOutcome.surfaced _ => true
  | _ => false

/-- Embeds result.expect(msg) as chunk_input (compress_cmd.rs) applies it to
worker results: a failure aborts the process with the message; it is never
converted into an Error value, and the result is consumed exactly once, so
nothing is retried. -/
def expectStage {ε α : Type} (msg : String) : Except ε α → StageOutcome α
  | Except.ok a => StageOutcome.ok a
  | Except.error _ => StageOutcome.aborted msg

/-- The expect site of chunk_input on the chunker result. -/
def onChunkerResult {α : Type} (r : Except BitarError α) : StageOutcome α :=
  expectStage "error while chunking" r

/-- The expect site of chunk_input on each hash-task join. -/
def onHashJoin {α : Type} (r : Except BitarError α) : StageOutcome α :=
  expectStage "error while hashing chunk" r

/-- The expect site of chunk_input on each compression invocation. -/
def onCompressResult {α : Type} (r : Except BitarError α) : StageOutcome α :=
  expectStage "failed to compress chunk" r

/-- The expect site of chunk_input on each compress-task join. -/
def onCompressJoin {α : Type} (r : Except BitarError α) : StageOutcome α :=
  expectStage "error while compressing chunk" r

/-- C9 (counterexample): a failed hash-task join inside chunk_input is
unwrapped with expect and aborts the process with the message of the expect
call; the outcome is not a surfaced Error, contradicting the claim that
chunk_input surfaces a WorkerJoin or Compression error rather than
aborting. -/
theorem chunk_input_worker_failure_counterexample :
    onHashJoin (Except.error (BitarError.joinError "worker join failed")
        : Except BitarError Unit)
      = StageOutcome.aborted "error while hashing chunk"
    ∧ (onHashJoin (Except.error (BitarError.joinError "worker join failed")
        : Except BitarError Unit)).isSurfaced = false :=
  ⟨rfl, rfl⟩

/-- C9 (amended): when a worker result inside chunk_input is a failure — the
chunking result, a hash-task join, a compression invocation, or a
compress-task join — the expect unwrap aborts the current process with the
message of that site instead of surfacing an Error value; no outcome of
these sites is ever a surfaced Error, and each result is consumed exactly
once, so the failure is not retried. -/
theorem chunk_input_worker_failure_aborts (α : Type) (e : BitarError) :
    onChunkerResult (Except.error e)
        = (StageOutcome.aborted "error while chunking" : StageOutcome α)
    ∧ onHashJoin (Except.error e)
        = (StageOutcome.aborted "error while hashing chunk" : StageOutcome α)
    ∧ onCompressResult (Except.error e)
        = (StageOutcome.aborted "failed to compress chunk" : StageOutcome α)
    ∧ onCompressJoin (Except.error e)
        = (StageOutcome.aborted "error while compressing chunk" : StageOutcome α)
    ∧ (∀ r : Except BitarError α,
        (onChunkerResult r).isSurfaced = false
        ∧ (onHashJoin r).isSurfaced = false
        ∧ (onCompressResult r).isSurfaced = false
        ∧ (onCompressJoin r).isSurfaced = false) := by
  refine ⟨rfl, rfl, rfl, rfl, ?_⟩
  intro r
  cases r with
  | ok a => exact ⟨rfl, rfl, rfl, rfl⟩
  | error e => exact ⟨rfl, rfl, rfl, rfl⟩

end Bita
